import Mathlib

set_option maxRecDepth 4000

/-!
# Verification of the scoutfs xattr subsystem (src/xattr.c)

A shallow embedding of the extended-attribute code of `src/xattr.c`.
Xattrs are packed into one or more item-store records ("parts"); the keys
carry `(ino, name_hash, id, part)` and are ordered lexicographically.

The item store, the lock manager, the transaction manager, the crc32c hash
and the `format.h` constants are collaborators that live outside `src/`;
they are modelled from the spec where noted.  Locks and the inode index
transaction machinery have no observable effect in this sequential model,
except that we record whether a transaction was held (`transUsed`) and, in
`scoutfs_xattr_drop`, the number of deletions performed per held
transaction (`batches`).

Bytes are modelled as `Nat`s; names and values are byte lists.  The hash
function is a parameter (`hashF`), standing for the kernel's `crc32c`; its
only relevant property, that it returns a `u32`, appears as a hypothesis
where needed.
-/

/-- Modelled from the spec: `SCOUTFS_XATTR_MAX_NAME_LEN` from the missing
`format.h`.  The header's `name_len` field is 8 bits, so 255. -/
def MAXNAME : Nat := 255

/-- Modelled from the spec: `SCOUTFS_XATTR_MAX_VAL_LEN` from the missing
`format.h`.  The header's `val_len` field is 16 bits, so 65535. -/
def MAXVAL : Nat := 65535

/-- Modelled from the spec: `SCOUTFS_XATTR_MAX_PART_SIZE` from the missing
`format.h`.  The spec fixes only that a part is smaller than the maximum
value length and that part 0 always carries the whole header and name
(so it is at least `3 + MAXNAME = 258`).  We fix 300 concretely. -/
def PARTSZ : Nat := 300

def U32MAX : Nat := 4294967295

def U64MAX : Nat := 18446744073709551615

/-- Errno values used by `xattr.c`, as an error type. -/
inductive Err where
  | enoent
  | eio
  | enodata
  | erange
  | e2big
  | einval
  | eopnotsupp
  | eexist
deriving DecidableEq, Repr

/-- `struct scoutfs_key` restricted to the xattr fields that `xattr.c`
populates: `sk_zone`/`sk_type` are the constants `SCOUTFS_FS_ZONE` /
`SCOUTFS_XATTR_TYPE` on every xattr key and are dropped. -/
structure Key where
  ino : Nat
  hsh : Nat
  id : Nat
  part : Nat
deriving DecidableEq, Repr

/-- `init_xattr_key`: build an xattr key (part starts at 0 unless set). -/
def xkey (ino hsh id part : Nat) : Key := ⟨ino, hsh, id, part⟩

/-- Lexicographic key order `(ino, hsh, id, part)`, strict.  This is the
item-store sort order (zone and type are equal on all xattr keys). -/
def keyLt (a b : Key) : Prop :=
  a.ino < b.ino ∨ (a.ino = b.ino ∧ (a.hsh < b.hsh ∨ (a.hsh = b.hsh ∧
    (a.id < b.id ∨ (a.id = b.id ∧ a.part < b.part)))))

/-- Lexicographic key order, non-strict. -/
def keyLe (a b : Key) : Prop :=
  a.ino < b.ino ∨ (a.ino = b.ino ∧ (a.hsh < b.hsh ∨ (a.hsh = b.hsh ∧
    (a.id < b.id ∨ (a.id = b.id ∧ a.part ≤ b.part)))))

instance (a b : Key) : Decidable (keyLt a b) := by unfold keyLt; infer_instance

instance (a b : Key) : Decidable (keyLe a b) := by unfold keyLe; infer_instance

/-- The item store: an association list from keys to byte payloads.
Modelled from the spec (the ordered key-value collaborator of §6). -/
abbrev Store : Type := List (Key × List Nat)

/-- First payload stored under key `k`, if any. -/
def findItem (st : Store) (k : Key) : Option (List Nat) :=
  (st.find? (fun e => e.1 == k)).map (·.2)

/-- Modelled from the spec: `next(start_key, end_key) -> item | NotFound`,
the item store's forward range scan (`scoutfs_item_next`).  Returns the
entry with the smallest key in `[a, b]` (the earliest such entry on a tie). -/
def itemNext (st : Store) (a b : Key) : Option (Key × List Nat) :=
  match st with
  | [] => none
  | e :: rest =>
    match itemNext rest a b with
    | none => if keyLe a e.1 ∧ keyLe e.1 b then some e else none
    | some m =>
      if keyLe a e.1 ∧ keyLe e.1 b then
        if keyLt m.1 e.1 then some m else some e
      else some m

/-- Modelled from the spec: `create(key, bytes) -> Ok | AlreadyExists |
Error` (`scoutfs_item_create`).  The unspecified `Error` outcome is
represented by a caller-supplied fault set `faults`. -/
def scoutfs_item_create (faults : Key → Bool) (st : Store) (k : Key)
    (v : List Nat) : Except Err Store :=
  if faults k then .error .eio
  else if (findItem st k).isSome then .error .eexist
  else .ok ((k, v) :: st)

/-- Modelled from the spec: `delete(key) -> Ok | NotFound`
(`scoutfs_item_delete`). -/
def scoutfs_item_delete (st : Store) (k : Key) : Except Err Store :=
  if (findItem st k).isSome then .ok (st.eraseP (fun e => e.1 == k))
  else .error .enoent

/-- Modelled from the spec: `delete_staged(key, rollback_list)`
(`scoutfs_item_delete_save`): remove the item but retain it on the
rollback list; absence of the key is NotFound as for `delete`. -/
def scoutfs_item_delete_save (st : Store) (k : Key) (saved : Store) :
    Except Err Unit × Store × Store :=
  match findItem st k with
  | none => (.error .enoent, st, saved)
  | some v => (.ok (), st.eraseP (fun e => e.1 == k), saved ++ [(k, v)])

/-- Modelled from the spec: `restore(rollback_list)`
(`scoutfs_item_restore`): reinstate the staged-deleted items. -/
def itemRestore (saved st : Store) : Store := saved ++ st

/- `xattr_name_hash` is `crc32c(U32_MAX, name, name_len)`; crc32c lives
outside `src/`, so the hash function is the parameter `hashF` throughout. -/

/-- The serialized xattr: `struct scoutfs_xattr` header
(`name_len : u8`, `val_len : le16`) followed by the name and value bytes. -/
def xattrEncode (name val : List Nat) : List Nat :=
  name.length :: (val.length % 256) :: (val.length / 256) :: (name ++ val)

/-- `name_len` field read back from a copied buffer. -/
def bufNameLen (buf : List Nat) : Nat := buf.getD 0 0

/-- `le16_to_cpu(xat->val_len)` read back from a copied buffer. -/
def bufValLen (buf : List Nat) : Nat := buf.getD 1 0 + 256 * buf.getD 2 0

/-- `xattr_full_bytes`: header plus name plus value length. -/
def xattr_full_bytes (nl vl : Nat) : Nat := 3 + nl + vl

/-- Modelled from the spec: `SCOUTFS_XATTR_NR_PARTS(name_len, val_len)`
from the missing `format.h` — `part_count` is
`ceil((header + name_len + val_len) / MAX_PART_SIZE)` (§4.2). -/
def xattr_nr_parts_len (nl vl : Nat) : Nat :=
  (3 + nl + vl + PARTSZ - 1) / PARTSZ

/-- Structural worker for `chunksOf`; `fuel` only bounds the recursion
(any value at least the list's length gives the same result). -/
def chunksOfAux : Nat → List Nat → List (List Nat)
  | _, [] => []
  | 0, _ :: _ => []
  | fuel + 1, a :: l => (a :: l).take PARTSZ :: chunksOfAux fuel ((a :: l).drop PARTSZ)

/-- Split a serialized xattr into its `PARTSZ`-sized parts, part 0 first. -/
def chunksOf (l : List Nat) : List (List Nat) := chunksOfAux l.length l

/-- `XATTR_USER_PREFIX` as bytes ("user."). -/
def userPfx : List Nat := [117, 115, 101, 114, 46]

/-- `XATTR_TRUSTED_PREFIX` as bytes ("trusted."). -/
def trustedPfx : List Nat := [116, 114, 117, 115, 116, 101, 100, 46]

/-- `XATTR_SYSTEM_PREFIX` as bytes ("system."). -/
def systemPfx : List Nat := [115, 121, 115, 116, 101, 109, 46]

/-- `XATTR_SECURITY_PREFIX` as bytes ("security."). -/
def securityPfx : List Nat := [115, 101, 99, 117, 114, 105, 116, 121, 46]

/-- `unknown_prefix` of `xattr.c`: the name starts with none of the four
recognized namespaces.  (Names are the bytes before the C string's NUL, so
`strncmp(name, p, strlen p) == 0` is exactly list-prefix.) -/
def unknown_pfx (name : List Nat) : Prop :=
  ¬ userPfx <+: name ∧ ¬ trustedPfx <+: name ∧
  ¬ systemPfx <+: name ∧ ¬ securityPfx <+: name

instance (name : List Nat) : Decidable (unknown_pfx name) := by
  unfold unknown_pfx; infer_instance

/-- Name equality test of `xattr_names_equal` applied to the caller's name
and the name bytes at offset 3 of the copied buffer (`xat->name`). -/
def bufNameMatches (name buf : List Nat) : Prop :=
  name.length = bufNameLen buf ∧ (buf.drop 3).take (bufNameLen buf) = name

instance (name buf : List Nat) : Decidable (bufNameMatches name buf) := by
  unfold bufNameMatches; infer_instance

/-- The part-0 header validation of `get_next_xattr` ("XXX corruption"):
with `ret` the bytes copied for part 0 (the buffer length, as part 0 is
copied at offset 0), the item must include the header, must include the
name whenever it could fit in the caller's buffer, and the declared
lengths must be in bounds. -/
def hdrBad (nameLen : Nat) (buf : List Nat) : Prop :=
  buf.length < 3 ∨
  (bufNameLen buf ≤ nameLen ∧ buf.length < 3 + bufNameLen buf) ∨
  bufNameLen buf > MAXNAME ∨ bufValLen buf > MAXVAL

instance (nameLen : Nat) (buf : List Nat) : Decidable (hdrBad nameLen buf) := by
  unfold hdrBad; infer_instance

/-- The scan loop of `get_next_xattr`.  `fuel` is an upper bound on the
loop trips; every caller passes `st.length + 1`, which suffices because
each trip advances the search key strictly past the item it found, so at
most `st.length` items can ever be found.  The accumulated buffer `acc`
plays the role of the `xat` scratch buffer (`total = acc.length`); on the
keep-looking path it is reset because `total` is still 0 there and the
next part-0 copy overwrites it. -/
def gnxLoop (st : Store) (ino bytes : Nat) (name : List Nat) (last : Key) :
    Nat → Nat → Nat → Nat → Nat → List Nat → Except Err (Key × List Nat)
  | 0, _, _, _, _, _ => .error .eio
  | fuel + 1, nameHash, id, part, lastPart, acc =>
    match itemNext st (xkey ino nameHash id part) last with
    | none => if 0 < part then .error .eio else .error .enoent
    | some (k, v) =>
      let acc2 := acc ++ v.take (bytes - acc.length)
      if k.part ≠ part then .error .eio
      else if part = 0 ∧ hdrBad name.length acc2 then .error .eio
      else if part = 0 ∧ 0 < name.length then
        if k.hsh ≠ nameHash then .error .enoent
        else if ¬ bufNameMatches name acc2 then
          gnxLoop st ino bytes name last fuel nameHash ((k.id + 1) % 2 ^ 64) 0
            lastPart []
        else
          let lp := (xattr_nr_parts_len (bufNameLen acc2) (bufValLen acc2) - 1) % 256
          if acc2.length = bytes ∨ part = lp then .ok (k, acc2)
          else gnxLoop st ino bytes name last fuel k.hsh k.id (part + 1) lp acc2
      else
        if acc2.length = bytes ∨ part = lastPart then .ok (k, acc2)
        else gnxLoop st ino bytes name last fuel k.hsh k.id (part + 1) lastPart acc2

/-- `get_next_xattr`: find the next xattr and copy key, header, name and
value bytes into a `bytes`-sized buffer.  With a name, iterate over the
items with the matching name hash until the name matches; without one,
return the next xattr from the `(nameHash, id)` position.  Returns the
final key and the copied bytes (the C `ret` is the buffer's length). -/
def get_next_xattr (hashF : List Nat → Nat) (st : Store) (ino bytes : Nat)
    (name : List Nat) (nameHash id : Nat) : Except Err (Key × List Nat) :=
  if 0 < name.length ∧ bytes < 3 + name.length then .error .einval
  else
    gnxLoop st ino bytes name (xkey ino U32MAX U64MAX 0) (st.length + 1)
      (if 0 < name.length then hashF name else nameHash) id 0 0 []

/-- `scoutfs_getxattr`: copy the value for `name` into the caller's buffer
of length `size` if it fits.  Result `ok (ret, out)` models (return value,
bytes written to the caller's buffer). -/
def scoutfs_getxattr (hashF : List Nat → Nat) (st : Store) (ino : Nat)
    (name : List Nat) (size : Nat) : Except Err (Nat × List Nat) :=
  if unknown_pfx name then .error .eopnotsupp
  else if name.length > MAXNAME then .error .enodata
  else
    match get_next_xattr hashF st ino (3 + name.length + size) name 0 0 with
    | .error .enoent => .error .enodata
    | .error e => .error e
    | .ok (_, buf) =>
      if size = 0 then .ok (bufValLen buf, [])
      else if size < bufValLen buf then .error .erange
      else if buf.length < xattr_full_bytes (bufNameLen buf) (bufValLen buf) then
        .error .eio
      else
        .ok (bufValLen buf, (buf.drop (3 + bufNameLen buf)).take (bufValLen buf))

/-- `scoutfs_item_delete_dirty` repeated by `create_xattr_items`' failure
path: remove the already-created parts `part-1 .. 0`. -/
def cleanupDirty (st : Store) (ino hsh id part : Nat) : Store :=
  ((List.range part).reverse).foldl
    (fun s p => s.eraseP (fun e => e.1 == xkey ino hsh id p)) st

/-- The creation loop of `create_xattr_items` over the pre-split parts. -/
def cxiLoop (faults : Key → Bool) (ino hsh id : Nat) :
    Store → Nat → List (List Nat) → Except Err Unit × Store
  | st, _, [] => (.ok (), st)
  | st, part, c :: rest =>
    match scoutfs_item_create faults st (xkey ino hsh id part) c with
    | .error e => (.error e, cleanupDirty st ino hsh id part)
    | .ok st2 => cxiLoop faults ino hsh id st2 (part + 1) rest

/-- `create_xattr_items`: create all the items of the xattr whose
serialized bytes are `enc`, deleting any items it created if one of the
creations fails. -/
def create_xattr_items (faults : Key → Bool) (st : Store) (ino hsh id : Nat)
    (enc : List Nat) : Except Err Unit × Store :=
  cxiLoop faults ino hsh id st 0 (chunksOf enc)

/-- The do/while loop of `delete_xattr_items`; `count` many parts starting
at `part` are staged-deleted (the caller passes `count = nr_parts ≥ 1`). -/
def dxiLoop (ino hsh id : Nat) :
    Store → Store → Nat → Nat → Except Err Unit × Store × Store
  | st, saved, _, 0 => (.ok (), st, saved)
  | st, saved, part, count + 1 =>
    match scoutfs_item_delete_save st (xkey ino hsh id part) saved with
    | (.error e, st2, sv2) => (.error e, st2, sv2)
    | (.ok _, st2, sv2) => dxiLoop ino hsh id st2 sv2 (part + 1) count

/-- `delete_xattr_items`: delete and save the `nrParts` items of the given
xattr; on error the already-staged items stay on `saved` for the caller
to restore. -/
def delete_xattr_items (st : Store) (ino hsh id nrParts : Nat) :
    Except Err Unit × Store × Store :=
  dxiLoop ino hsh id st [] 0 nrParts

/-- Outcome of `scoutfs_xattr_set`: the return code, the item store,
the inode's `next_xattr_id` counter, and whether a transaction was held
(`scoutfs_inode_index_try_lock_hold` reached and the matching
`scoutfs_release_trans` run). -/
structure SetResult where
  ret : Except Err Unit
  store : Store
  nextId : Nat
  transUsed : Bool
deriving Repr

/-- The transaction phase of `scoutfs_xattr_set`, from the `retry:` label:
dirty the inode, stage-delete the `foundParts` items of the found existing
xattr, create the new items when a value is given, and on any error
restore the staged items before surfacing it.  (Index/transaction
acquisition and `scoutfs_dirty_inode_item` are external collaborators that
do not fail in this model.) -/
def xattrSetCommit (hashF : List Nat → Nat) (faults : Key → Bool) (st : Store)
    (ino nid2 : Nat) (name : List Nat) (value : Option (List Nat))
    (useId foundParts foundHsh foundId : Nat) : SetResult :=
  match (if 0 < foundParts then delete_xattr_items st ino foundHsh foundId foundParts
         else (.ok (), st, [])) with
  | (.error e, st2, saved) => ⟨.error e, itemRestore saved st2, nid2, true⟩
  | (.ok _, st2, saved) =>
    match (if value.isSome then
             create_xattr_items faults st2 ino (hashF name) useId
               (xattrEncode name (value.getD []))
           else (.ok (), st2)) with
    | (.error e, st3) => ⟨.error e, itemRestore saved st3, nid2, true⟩
    | (.ok _, st3) => ⟨.ok (), st3, nid2, true⟩

/-- `scoutfs_xattr_set`: create, modify or delete the xattr `name`.
Removes any existing xattr items; a `some` value creates a new xattr whose
creation honours the `XATTR_CREATE` (bit 0) and `XATTR_REPLACE` (bit 1)
`flags`; a `none` value deletes. -/
def scoutfs_xattr_set (hashF : List Nat → Nat) (faults : Key → Bool)
    (st : Store) (ino nid : Nat) (name : List Nat) (value : Option (List Nat))
    (flags : Nat) : SetResult :=
  if name.length > MAXNAME then ⟨.error .erange, st, nid, false⟩
  else if value.isSome ∧ (value.getD []).length > MAXVAL then
    ⟨.error .e2big, st, nid, false⟩
  else if (flags % 2 = 1 ∧ flags / 2 % 2 = 1) ∨ 4 ≤ flags then
    ⟨.error .einval, st, nid, false⟩
  else if unknown_pfx name then ⟨.error .eopnotsupp, st, nid, false⟩
  else
    match get_next_xattr hashF st ino (3 + name.length) name 0 0 with
    | .error .enoent =>
      if flags / 2 % 2 = 1 then ⟨.error .enodata, st, nid, false⟩
      else if value.isNone then ⟨.ok (), st, nid, false⟩
      else
        xattrSetCommit hashF faults st ino (nid + 1) name value nid 0 0 0
    | .error e => ⟨.error e, st, nid, false⟩
    | .ok (k, buf) =>
      if flags % 2 = 1 then ⟨.error .eexist, st, nid, false⟩
      else
        xattrSetCommit hashF faults st ino
          (if value.isSome then nid + 1 else nid) name value nid
          (xattr_nr_parts_len (bufNameLen buf) (bufValLen buf) % 256)
          k.hsh k.id

/-- `scoutfs_setxattr`: entry point mapping a zero `size` to the empty
value (xattrs may have zero-length values). -/
def scoutfs_setxattr (hashF : List Nat → Nat) (faults : Key → Bool)
    (st : Store) (ino nid : Nat) (name : List Nat) (value : Option (List Nat))
    (flags : Nat) : SetResult :=
  scoutfs_xattr_set hashF faults st ino nid name
    (if (value.getD []).length = 0 then some [] else value) flags

/-- `scoutfs_removexattr`: delete by setting with no value and
`XATTR_REPLACE`. -/
def scoutfs_removexattr (hashF : List Nat → Nat) (faults : Key → Bool)
    (st : Store) (ino nid : Nat) (name : List Nat) : SetResult :=
  scoutfs_xattr_set hashF faults st ino nid name none 2

/-- The enumeration loop of `scoutfs_listxattr`.  `fuel` bounds the trips;
`st.length + 1` suffices because every found instance moves the cursor
`(nameHash, id)` strictly past all of its items. -/
def listLoop (hashF : List Nat → Nat) (st : Store) (ino size : Nat) :
    Nat → Nat → Nat → Nat → List Nat → Except Err (Nat × List Nat)
  | 0, _, _, _, _ => .error .eio
  | fuel + 1, nameHash, id, total, buf =>
    match get_next_xattr hashF st ino (3 + MAXNAME) [] nameHash id with
    | .error .enoent => .ok (total, buf)
    | .error e => .error e
    | .ok (k, b) =>
      let total2 := total + bufNameLen b + 1
      if size ≠ 0 ∧ size < total2 then .error .erange
      else
        listLoop hashF st ino size fuel k.hsh ((k.id + 1) % 2 ^ 64) total2
          (if size ≠ 0 then buf ++ (b.drop 3).take (bufNameLen b) ++ [0] else buf)

/-- `scoutfs_listxattr`: enumerate the names of all xattrs of the file,
NUL-separated, from the `(name_hash, id) = (0, 0)` cursor.  Result
`ok (ret, out)` models (return value, bytes written to the caller's
buffer); a zero `size` only counts the bytes needed. -/
def scoutfs_listxattr (hashF : List Nat → Nat) (st : Store) (ino size : Nat) :
    Except Err (Nat × List Nat) :=
  listLoop hashF st ino size (st.length + 1) 0 0 0 []

/-- The scan-and-delete loop of `scoutfs_xattr_drop`.  `batches` records,
per held transaction, how many deletions it performed; `items` counts the
remaining allowance of the current transaction (16 at acquisition). -/
def dropLoop (lo hi : Key) :
    Nat → Store → Nat → Bool → List Nat → Store × List Nat
  | 0, st, _, _, batches => (st, batches)
  | fuel + 1, st, items, holding, batches =>
    match itemNext st lo hi with
    | none => (st, if holding then batches ++ [16 - items] else batches)
    | some (k, _) =>
      let st2 := st.eraseP (fun e => e.1 == k)
      if items - 1 = 0 then dropLoop lo hi fuel st2 16 false (batches ++ [16])
      else dropLoop lo hi fuel st2 (items - 1) true batches

/-- `scoutfs_xattr_drop`: delete all xattr items of inode `ino`, batching
the deletions into held transactions of at most 16 items.  Returns the
resulting store and the per-transaction deletion counts. -/
def scoutfs_xattr_drop (st : Store) (ino : Nat) : Store × List Nat :=
  dropLoop (xkey ino 0 0 0) (xkey ino U32MAX U64MAX 0) (st.length + 1) st 16
    false []

/-! ## Derived stores used in the statements: the items of one xattr -/

/-- The `p`-th `PARTSZ`-byte slice of a serialized xattr. -/
def chunkAt (l : List Nat) (p : Nat) : List Nat :=
  (l.drop (p * PARTSZ)).take PARTSZ

/-- Part items built from a list of chunks, keyed from part `q` up. -/
def partsFrom (ino hsh id : Nat) : Nat → List (List Nat) → Store
  | _, [] => []
  | q, c :: rest => (xkey ino hsh id q, c) :: partsFrom ino hsh id (q + 1) rest

/-- The item set of one stored xattr: the parts of its serialized bytes in
ascending part order, exactly what a successful `create_xattr_items` puts
into the store. -/
def xattrItems (ino hsh id : Nat) (enc : List Nat) : Store :=
  partsFrom ino hsh id 0 (chunksOf enc)

/-- A store whose entries are exactly parts `0 .. m-1` of the xattr
serialized as `enc` under `(ino, hsh, id)`: each of those parts is found at
its key, and there is nothing else.  (`m ≤ st.length` follows but is
carried for fuel bookkeeping.) -/
def singleXattrStore (st : Store) (ino hsh id m : Nat) (enc : List Nat) : Prop :=
  (∀ p, p < m → findItem st (xkey ino hsh id p) = some (chunkAt enc p)) ∧
  (∀ e ∈ st, ∃ p, p < m ∧ e.1 = xkey ino hsh id p) ∧
  m ≤ st.length

instance (st : Store) (ino hsh id m : Nat) (enc : List Nat) :
    Decidable (singleXattrStore st ino hsh id m enc) := by
  unfold singleXattrStore; infer_instance

/-- A store with no items at all for inode `ino`. -/
def noInoItems (st : Store) (ino : Nat) : Prop := ∀ e ∈ st, e.1.ino ≠ ino

instance (st : Store) (ino : Nat) : Decidable (noInoItems st ino) := by
  unfold noInoItems; infer_instance

/-- One logical xattr instance (its allocated id, name and value), used to
describe stores holding several xattrs. -/
structure Inst where
  id : Nat
  name : List Nat
  val : List Nat
deriving DecidableEq, Repr

/-- Serialized bytes of an instance. -/
def instEnc (i : Inst) : List Nat := xattrEncode i.name i.val

/-- The part-0 key of an instance. -/
def instKey (hashF : List Nat → Nat) (ino : Nat) (i : Inst) : Key :=
  xkey ino (hashF i.name) i.id 0

/-- The store holding the items of all instances of `l` (in the list's
order, which the theorems show is irrelevant). -/
def instStore (hashF : List Nat → Nat) (ino : Nat) (l : List Inst) : Store :=
  (l.map (fun i => xattrItems ino (hashF i.name) i.id (instEnc i))).flatten

/-- Well-formedness of a list of stored instances: sizes within bounds and
ids below the key space's maximum, as any store produced by successful
`scoutfs_xattr_set` calls satisfies. -/
def wfInsts (l : List Inst) : Prop :=
  ∀ i ∈ l, i.name.length ≤ MAXNAME ∧ i.val.length ≤ MAXVAL ∧ i.id < 2 ^ 64 - 1

instance (l : List Inst) : Decidable (wfInsts l) := by
  unfold wfInsts; infer_instance


/-- Concrete names used by the witness instances: "user.a", "user.b", and
an over-long "user.aaated..." name of 256 bytes. -/
def nmUserA : List Nat := [117, 115, 101, 114, 46, 97]

def nmUserB : List Nat := [117, 115, 101, 114, 46, 98]

def nmLong : List Nat := userPfx ++ List.replicate 251 97


/-! ## Key order lemmas -/

theorem keyLe_refl (a : Key) : keyLe a a := by
  cases a; simp [keyLe]

theorem keyLe_trans {a b c : Key} (hab : keyLe a b) (hbc : keyLe b c) :
    keyLe a c := by
  cases a; cases b; cases c
  simp only [keyLe] at *
  omega

theorem keyLe_total (a b : Key) : keyLe a b ∨ keyLe b a := by
  cases a; cases b
  simp only [keyLe]
  omega

theorem keyLe_antisymm {a b : Key} (hab : keyLe a b) (hba : keyLe b a) :
    a = b := by
  cases a; cases b
  simp only [keyLe] at *
  simp only [Key.mk.injEq]
  omega

theorem not_keyLe {a b : Key} : ¬ keyLe a b ↔ keyLt b a := by
  cases a; cases b
  simp only [keyLe, keyLt]
  omega

theorem keyLe_of_lt {a b : Key} (h : keyLt a b) : keyLe a b := by
  cases a; cases b
  simp only [keyLe, keyLt] at *
  omega

theorem keyLt_iff {a b : Key} : keyLt a b ↔ keyLe a b ∧ a ≠ b := by
  cases a; cases b
  simp only [keyLe, keyLt, ne_eq, Key.mk.injEq, not_and]
  constructor
  · intro h; constructor
    · omega
    · intro h1 h2 h3; omega
  · intro ⟨h1, h2⟩
    rcases Nat.lt_or_ge _ _ with h | h
    · exact Or.inl h
    · rcases h1 with h1 | ⟨e1, h1⟩
      · omega
      · subst e1
        rcases h1 with h1 | ⟨e2, h1⟩
        · right; exact ⟨rfl, Or.inl h1⟩
        · subst e2
          rcases h1 with h1 | ⟨e3, h1⟩
          · right; refine ⟨rfl, ?_⟩; right; exact ⟨rfl, Or.inl h1⟩
          · subst e3
            right; refine ⟨rfl, ?_⟩; right; refine ⟨rfl, ?_⟩; right
            refine ⟨rfl, ?_⟩
            rcases Nat.lt_or_ge _ _ with hp | hp
            · exact hp
            · exfalso; exact h2 rfl rfl rfl (Nat.le_antisymm h1 hp)

/-! ## Item store lemmas -/

theorem findItem_nil (k : Key) : findItem [] k = none := rfl


theorem findItem_cons (e : Key × List Nat) (st : Store) (k : Key) :
    findItem (e :: st) k = if e.1 = k then some e.2 else findItem st k := by
  by_cases h : e.1 = k
  · rw [findItem, List.find?_cons_of_pos _ (by simp [h])]
    simp [h]
  · rw [findItem, List.find?_cons_of_neg _ (by simp [h])]
    simp [h, findItem]

theorem findItem_append (l1 l2 : Store) (k : Key) :
    findItem (l1 ++ l2) k =
      match findItem l1 k with
      | some v => some v
      | none => findItem l2 k := by
  induction l1 with
  | nil => simp [findItem_nil]
  | cons e rest ih =>
    rw [List.cons_append, findItem_cons, findItem_cons]
    by_cases h : e.1 = k
    · simp [h]
    · simp only [h, if_false]
      exact ih

theorem findItem_isSome_iff {st : Store} {k : Key} :
    (findItem st k).isSome ↔ ∃ e ∈ st, e.1 = k := by
  induction st with
  | nil => simp [findItem_nil]
  | cons e rest ih =>
    rw [findItem_cons]
    by_cases h : e.1 = k
    · simp [h]
    · simp only [h, if_false, ih, List.mem_cons]
      constructor
      · intro ⟨x, hx, he⟩
        exact ⟨x, Or.inr hx, he⟩
      · intro ⟨x, hx, he⟩
        rcases hx with hx | hx
        · subst hx; exact absurd he h
        · exact ⟨x, hx, he⟩

theorem findItem_eq_none_iff {st : Store} {k : Key} :
    findItem st k = none ↔ ∀ e ∈ st, e.1 ≠ k := by
  induction st with
  | nil => simp [findItem_nil]
  | cons e rest ih =>
    rw [findItem_cons]
    by_cases h : e.1 = k
    · simp [h]
    · simp only [h, if_false, ih, List.mem_cons]
      constructor
      · intro hall e' he'
        rcases he' with he' | he'
        · subst he'; exact h
        · exact hall e' he'
      · intro hall e' he'
        exact hall e' (Or.inr he')

theorem findItem_mem {st : Store} {k : Key} {v : List Nat}
    (h : findItem st k = some v) : (k, v) ∈ st := by
  induction st with
  | nil => simp [findItem_nil] at h
  | cons e rest ih =>
    rw [findItem_cons] at h
    by_cases he : e.1 = k
    · rw [if_pos he] at h
      obtain ⟨ek, ev⟩ := e
      simp only [Option.some.injEq] at h
      simp only at he
      subst he
      subst h
      exact List.mem_cons_self _ _
    · rw [if_neg he] at h
      exact List.mem_cons_of_mem _ (ih h)

theorem itemNext_isSome {st : Store} {a b : Key} {e : Key × List Nat}
    (he : e ∈ st) (h1 : keyLe a e.1) (h2 : keyLe e.1 b) :
    (itemNext st a b).isSome := by
  induction st with
  | nil => cases he
  | cons x rest ih =>
    rw [itemNext]
    rcases hr : itemNext rest a b with _ | m
    · rcases List.mem_cons.mp he with hex | hex
      · subst hex
        rw [if_pos ⟨h1, h2⟩]
        simp
      · have := ih hex
        rw [hr] at this
        simp at this
    · simp only
      by_cases hin : keyLe a x.1 ∧ keyLe x.1 b
      · rw [if_pos hin]
        split <;> simp
      · rw [if_neg hin]
        simp

theorem itemNext_none_iff {st : Store} {a b : Key} :
    itemNext st a b = none ↔ ∀ e ∈ st, ¬(keyLe a e.1 ∧ keyLe e.1 b) := by
  constructor
  · intro h e he hin
    have := itemNext_isSome he hin.1 hin.2
    rw [h] at this
    simp at this
  · induction st with
    | nil => intro _; rfl
    | cons x rest ih =>
      intro h
      have hx : ¬(keyLe a x.1 ∧ keyLe x.1 b) := h x (List.mem_cons_self _ _)
      have hrest := ih (fun e he => h e (List.mem_cons_of_mem _ he))
      rw [itemNext, hrest, if_neg hx]

theorem keyLt_ne {a b : Key} (h : keyLt a b) : a ≠ b :=
  (keyLt_iff.mp h).2

theorem keyLe_of_not_lt {a b : Key} (h : ¬ keyLt a b) : keyLe b a := by
  cases a; cases b
  simp only [keyLt, keyLe] at *
  omega

theorem itemNext_mem {st : Store} {a b : Key} {k : Key} {v : List Nat}
    (h : itemNext st a b = some (k, v)) :
    (k, v) ∈ st ∧ keyLe a k ∧ keyLe k b := by
  induction st generalizing k v with
  | nil => cases h
  | cons x rest ih =>
    rw [itemNext] at h
    rcases hr : itemNext rest a b with _ | m <;> rw [hr] at h
    · by_cases hin : keyLe a x.1 ∧ keyLe x.1 b
      · rw [if_pos hin] at h
        injection h with h
        subst h
        exact ⟨List.mem_cons_self _ _, hin⟩
      · rw [if_neg hin] at h
        cases h
    · simp only at h
      by_cases hin : keyLe a x.1 ∧ keyLe x.1 b
      · rw [if_pos hin] at h
        by_cases hlt : keyLt m.1 x.1
        · rw [if_pos hlt] at h
          injection h with h
          obtain ⟨mk, mv⟩ := m
          injection h with h1 h2
          subst h1; subst h2
          have := ih hr
          exact ⟨List.mem_cons_of_mem _ this.1, this.2⟩
        · rw [if_neg hlt] at h
          injection h with h
          subst h
          exact ⟨List.mem_cons_self _ _, hin⟩
      · rw [if_neg hin] at h
        injection h with h
        obtain ⟨mk, mv⟩ := m
        injection h with h1 h2
        subst h1; subst h2
        have := ih hr
        exact ⟨List.mem_cons_of_mem _ this.1, this.2⟩

theorem itemNext_min {st : Store} {a b : Key} {k : Key} {v : List Nat}
    (h : itemNext st a b = some (k, v)) :
    ∀ e ∈ st, keyLe a e.1 → keyLe e.1 b → keyLe k e.1 := by
  induction st generalizing k v with
  | nil => cases h
  | cons x rest ih =>
    intro e he ha hb
    rw [itemNext] at h
    rcases hr : itemNext rest a b with _ | m <;> rw [hr] at h
    · by_cases hin : keyLe a x.1 ∧ keyLe x.1 b
      · rw [if_pos hin] at h
        injection h with h
        subst h
        rcases List.mem_cons.mp he with hex | hex
        · subst hex; exact keyLe_refl _
        · exact absurd ⟨ha, hb⟩ (itemNext_none_iff.mp hr e hex)
      · rw [if_neg hin] at h
        cases h
    · simp only at h
      by_cases hin : keyLe a x.1 ∧ keyLe x.1 b
      · rw [if_pos hin] at h
        by_cases hlt : keyLt m.1 x.1
        · rw [if_pos hlt] at h
          obtain ⟨mk, mv⟩ := m
          injection h with h
          injection h with h1 h2
          subst h1; subst h2
          rcases List.mem_cons.mp he with hex | hex
          · subst hex; exact keyLe_of_lt hlt
          · exact ih hr e hex ha hb
        · rw [if_neg hlt] at h
          injection h with h
          subst h
          rcases List.mem_cons.mp he with hex | hex
          · subst hex; exact keyLe_refl _
          · have hxm : keyLe k m.1 := keyLe_of_not_lt hlt
            exact keyLe_trans hxm (ih hr e hex ha hb)
      · rw [if_neg hin] at h
        obtain ⟨mk, mv⟩ := m
        injection h with h
        injection h with h1 h2
        subst h1; subst h2
        rcases List.mem_cons.mp he with hex | hex
        · subst hex; exact absurd ⟨ha, hb⟩ hin
        · exact ih hr e hex ha hb

theorem itemNext_find {st : Store} {a b : Key} {k : Key} {v : List Nat}
    (h : itemNext st a b = some (k, v)) : findItem st k = some v := by
  induction st generalizing k v with
  | nil => cases h
  | cons x rest ih =>
    rw [itemNext] at h
    rw [findItem_cons]
    rcases hr : itemNext rest a b with _ | m <;> rw [hr] at h
    · by_cases hin : keyLe a x.1 ∧ keyLe x.1 b
      · rw [if_pos hin] at h
        injection h with h
        subst h
        simp
      · rw [if_neg hin] at h
        cases h
    · simp only at h
      by_cases hin : keyLe a x.1 ∧ keyLe x.1 b
      · rw [if_pos hin] at h
        by_cases hlt : keyLt m.1 x.1
        · rw [if_pos hlt] at h
          obtain ⟨mk, mv⟩ := m
          injection h with h
          injection h with h1 h2
          subst h1; subst h2
          rw [if_neg (fun hc => keyLt_ne hlt (by simpa using hc.symm))]
          exact ih hr
        · rw [if_neg hlt] at h
          injection h with h
          subst h
          simp
      · rw [if_neg hin] at h
        obtain ⟨mk, mv⟩ := m
        injection h with h
        injection h with h1 h2
        subst h1; subst h2
        have hkin := (itemNext_mem hr).2
        rw [if_neg (fun hc => hin (by rw [hc]; exact hkin))]
        exact ih hr

theorem itemNext_eq_some {st : Store} {a b : Key} {k : Key} {v : List Nat}
    (hf : findItem st k = some v) (ha : keyLe a k) (hb : keyLe k b)
    (hmin : ∀ e ∈ st, keyLe a e.1 → keyLe e.1 b → keyLe k e.1) :
    itemNext st a b = some (k, v) := by
  rcases hn : itemNext st a b with _ | m
  · exact absurd ⟨ha, hb⟩ (itemNext_none_iff.mp hn (k, v) (findItem_mem hf))
  · obtain ⟨mk, mv⟩ := m
    have hm := itemNext_mem hn
    have h1 : keyLe k mk := hmin (mk, mv) hm.1 hm.2.1 hm.2.2
    have h2 : keyLe mk k := itemNext_min hn (k, v) (findItem_mem hf) ha hb
    have : mk = k := keyLe_antisymm h2 h1
    subst this
    rw [itemNext_find hn] at hf
    injection hf with hf
    rw [hf]

/-! ## Chunk and part-store lemmas -/

theorem chunksOf_nil : chunksOf [] = [] := rfl

theorem chunksOfAux_fuel :
    ∀ fuel1, ∀ fuel2, ∀ l : List Nat, l.length ≤ fuel1 → l.length ≤ fuel2 →
      chunksOfAux fuel1 l = chunksOfAux fuel2 l := by
  intro fuel1
  induction fuel1 with
  | zero =>
    intro fuel2 l h1 _
    have : l = [] := List.eq_nil_of_length_eq_zero (by omega)
    subst this
    cases fuel2 <;> rfl
  | succ f1 ih =>
    intro fuel2 l h1 h2
    rcases l with _ | ⟨a, t⟩
    · cases fuel2 <;> rfl
    · rcases fuel2 with _ | f2
      · simp at h2
      · rw [chunksOfAux, chunksOfAux]
        congr 1
        apply ih
        · simp only [List.length_drop, List.length_cons] at *
          simp only [PARTSZ]
          omega
        · simp only [List.length_drop, List.length_cons] at *
          simp only [PARTSZ]
          omega

theorem chunksOf_cons {l : List Nat} (h : l ≠ []) :
    chunksOf l = l.take PARTSZ :: chunksOf (l.drop PARTSZ) := by
  rcases l with _ | ⟨a, t⟩
  · exact absurd rfl h
  · show chunksOfAux (t.length + 1) (a :: t) = _
    rw [chunksOfAux]
    congr 1
    apply chunksOfAux_fuel
    · simp only [List.length_drop, List.length_cons, PARTSZ]
      omega
    · exact Nat.le_refl _

theorem chunksOf_length_bounded :
    ∀ n, ∀ l : List Nat, l.length ≤ n →
      (chunksOf l).length = (l.length + PARTSZ - 1) / PARTSZ := by
  intro n
  induction n with
  | zero =>
    intro l h
    have : l = [] := List.eq_nil_of_length_eq_zero (by omega)
    subst this
    simp [chunksOf_nil, PARTSZ]
  | succ n ih =>
    intro l h
    by_cases hl : l = []
    · subst hl
      simp [chunksOf_nil, PARTSZ]
    · have hpos : 0 < l.length :=
        Nat.pos_of_ne_zero (fun hz => hl (List.eq_nil_of_length_eq_zero hz))
      rw [chunksOf_cons hl, List.length_cons,
        ih (l.drop PARTSZ) (by simp only [List.length_drop, PARTSZ] at *; omega)]
      simp only [List.length_drop, PARTSZ] at *
      omega

theorem chunksOf_length (l : List Nat) :
    (chunksOf l).length = (l.length + PARTSZ - 1) / PARTSZ :=
  chunksOf_length_bounded l.length l (Nat.le_refl _)

theorem chunksOf_getD_bounded :
    ∀ n, ∀ l : List Nat, l.length ≤ n → ∀ p, p < (chunksOf l).length →
      (chunksOf l).getD p [] = chunkAt l p := by
  intro n
  induction n with
  | zero =>
    intro l h p hp
    have : l = [] := List.eq_nil_of_length_eq_zero (by omega)
    subst this
    simp [chunksOf_nil] at hp
  | succ n ih =>
    intro l h p hp
    by_cases hl : l = []
    · subst hl
      simp [chunksOf_nil] at hp
    · rw [chunksOf_cons hl] at hp ⊢
      match p with
      | 0 => simp [chunkAt]
      | q + 1 =>
        simp only [List.getD_cons_succ]
        rw [ih (l.drop PARTSZ)
          (by
            have hpos : 0 < l.length :=
              Nat.pos_of_ne_zero (fun hz => hl (List.eq_nil_of_length_eq_zero hz))
            simp only [List.length_drop, PARTSZ] at *
            omega)
          q (by simpa using hp)]
        simp only [chunkAt, List.drop_drop]
        ring_nf

theorem chunksOf_getD (l : List Nat) (p : Nat) (hp : p < (chunksOf l).length) :
    (chunksOf l).getD p [] = chunkAt l p :=
  chunksOf_getD_bounded l.length l (Nat.le_refl _) p hp

theorem partsFrom_length (ino hsh id q : Nat) (cs : List (List Nat)) :
    (partsFrom ino hsh id q cs).length = cs.length := by
  induction cs generalizing q with
  | nil => rfl
  | cons c rest ih => simp [partsFrom, ih]

theorem findItem_partsFrom (ino hsh id q p : Nat) (cs : List (List Nat)) :
    findItem (partsFrom ino hsh id q cs) (xkey ino hsh id p) =
      if q ≤ p ∧ p < q + cs.length then some (cs.getD (p - q) []) else none := by
  induction cs generalizing q with
  | nil =>
    show findItem [] (xkey ino hsh id p) = _
    rw [findItem_nil, if_neg (by simp)]
  | cons c rest ih =>
    rw [partsFrom, findItem_cons]
    by_cases hq : q = p
    · subst hq
      rw [if_pos (by simp [xkey])]
      rw [if_pos (by simp)]
      simp
    · rw [if_neg (by simp [xkey]; intro h; exact absurd h hq)]
      rw [ih (q + 1)]
      by_cases hin : q + 1 ≤ p ∧ p < q + 1 + rest.length
      · rw [if_pos hin, if_pos (by simp only [List.length_cons]; omega)]
        have : p - q = (p - (q + 1)) + 1 := by omega
        rw [this]
        simp
      · rw [if_neg hin, if_neg (by simp only [List.length_cons]; omega)]

theorem mem_partsFrom {ino hsh id q : Nat} {cs : List (List Nat)}
    {e : Key × List Nat} (he : e ∈ partsFrom ino hsh id q cs) :
    ∃ p, q ≤ p ∧ p < q + cs.length ∧ e.1 = xkey ino hsh id p := by
  induction cs generalizing q with
  | nil => cases he
  | cons c rest ih =>
    rcases List.mem_cons.mp he with he | he
    · exact ⟨q, Nat.le_refl _, by simp, by rw [he]⟩
    · rcases ih he with ⟨p, h1, h2, h3⟩
      exact ⟨p, by omega, by simp at h2 ⊢; omega, h3⟩

theorem xattrItems_single (ino hsh id : Nat) (enc : List Nat) :
    singleXattrStore (xattrItems ino hsh id enc) ino hsh id
      (chunksOf enc).length enc := by
  refine ⟨?_, ?_, ?_⟩
  · intro p hp
    rw [xattrItems, findItem_partsFrom, if_pos (by omega)]
    rw [Nat.sub_zero, chunksOf_getD enc p hp]
  · intro e he
    rcases mem_partsFrom he with ⟨p, _, h2, h3⟩
    exact ⟨p, by omega, h3⟩
  · rw [xattrItems, partsFrom_length]

theorem itemNext_self {st : Store} {a b : Key} {v : List Nat}
    (hf : findItem st a = some v) (hb : keyLe a b) :
    itemNext st a b = some (a, v) :=
  itemNext_eq_some hf (keyLe_refl a) hb (fun _ _ ha _ => ha)

theorem keyLt_xkey_iff {i1 h1 id1 p1 i2 h2 id2 p2 : Nat} :
    keyLt (xkey i1 h1 id1 p1) (xkey i2 h2 id2 p2) ↔
      (i1 < i2 ∨ (i1 = i2 ∧ (h1 < h2 ∨ (h1 = h2 ∧
        (id1 < id2 ∨ (id1 = id2 ∧ p1 < p2)))))) := Iff.rfl

theorem keyLe_xkey_iff {i1 h1 id1 p1 i2 h2 id2 p2 : Nat} :
    keyLe (xkey i1 h1 id1 p1) (xkey i2 h2 id2 p2) ↔
      (i1 < i2 ∨ (i1 = i2 ∧ (h1 < h2 ∨ (h1 = h2 ∧
        (id1 < id2 ∨ (id1 = id2 ∧ p1 ≤ p2)))))) := Iff.rfl

theorem keyLe_iff_not_lt {a b : Key} : keyLe a b ↔ ¬ keyLt b a := by
  constructor
  · intro h hlt
    have heq := keyLe_antisymm h (keyLe_of_lt hlt)
    subst heq
    exact keyLt_ne hlt rfl
  · exact keyLe_of_not_lt

theorem xkey_hsh (a b c d : Nat) : (xkey a b c d).hsh = b := rfl

theorem xkey_idf (a b c d : Nat) : (xkey a b c d).id = c := rfl

theorem keyLe_last {ino hsh id p : Nat} (hh : hsh < 2 ^ 32)
    (hi : id < 2 ^ 64 - 1) :
    keyLe (xkey ino hsh id p) (xkey ino U32MAX U64MAX 0) := by
  rw [keyLe_iff_not_lt, keyLt_xkey_iff]
  simp only [U32MAX, U64MAX]
  omega

/-! ## Serialization lemmas -/

theorem xattrEncode_length (name val : List Nat) :
    (xattrEncode name val).length = 3 + name.length + val.length := by
  simp [xattrEncode]
  omega

theorem getD_take {l : List Nat} {t i : Nat} (h : i < t) :
    (l.take t).getD i 0 = l.getD i 0 := by
  simp only [List.getD]
  rw [List.get?_take h]

theorem bufNameLen_take {name val : List Nat} {t : Nat} (h : 1 ≤ t) :
    bufNameLen ((xattrEncode name val).take t) = name.length := by
  rw [bufNameLen, getD_take (by omega)]
  rfl

theorem bufValLen_take {name val : List Nat} {t : Nat} (h : 3 ≤ t)
    (hv : val.length ≤ MAXVAL) :
    bufValLen ((xattrEncode name val).take t) = val.length := by
  rw [bufValLen, getD_take (by omega), getD_take (by omega)]
  show val.length % 256 + 256 * (val.length / 256) = val.length
  omega

theorem encode_name_slice {name val : List Nat} {t : Nat}
    (h : 3 + name.length ≤ t) :
    (((xattrEncode name val).take t).drop 3).take name.length = name := by
  have h1 : ((xattrEncode name val).take t).drop 3 =
      ((xattrEncode name val).drop 3).take (t - 3) := by
    rw [List.drop_take]
  have h2 : (xattrEncode name val).drop 3 = name ++ val := rfl
  rw [h1, h2, List.take_take, Nat.min_eq_left (by omega),
    List.take_append_of_le_length (Nat.le_refl _), List.take_length]

theorem encode_val_slice {name val : List Nat} :
    ((xattrEncode name val).drop (3 + name.length)).take val.length = val := by
  rw [Nat.add_comm 3 name.length]
  show ((name ++ val).drop name.length).take val.length = val
  rw [List.drop_left, List.take_length]

/-! ## Reading one stored xattr: the continuation-part loop -/

/-- Reading the continuation parts of a complete single-instance store:
from any part `p ≥ 1` with the prefix of the serialized bytes already
accumulated, the loop returns the first `bytes` serialized bytes. -/
theorem gnxLoop_tail_complete {st : Store} {ino hsh id n bytes : Nat}
    {enc : List Nat} (name : List Nat)
    (hsing : singleXattrStore st ino hsh id n enc)
    (hn : n = (chunksOf enc).length)
    (hhsh : hsh < 2 ^ 32) (hid : id < 2 ^ 64 - 1) :
    ∀ fuel p, 1 ≤ p → p ≤ n - 1 → p * PARTSZ < bytes → n - p ≤ fuel →
    ∃ pk, gnxLoop st ino bytes name (xkey ino U32MAX U64MAX 0) fuel hsh id p
        (n - 1) (enc.take (p * PARTSZ)) =
      .ok (xkey ino hsh id pk, enc.take bytes) := by
  have hceil : n = (enc.length + PARTSZ - 1) / PARTSZ := by
    rw [hn, chunksOf_length]
  intro fuel
  induction fuel with
  | zero => intro p hp1 hpn hpb hfuel; omega
  | succ fuel ih =>
    intro p hp1 hpn hpb hfuel
    have hnp : p < n := by omega
    have hn2 : 2 ≤ n := by omega
    have hL1 : (n - 1) * PARTSZ < enc.length := by
      simp only [PARTSZ] at *
      omega
    have hLn : enc.length ≤ n * PARTSZ := by
      simp only [PARTSZ] at *
      omega
    have hpL : p * PARTSZ < enc.length := by
      simp only [PARTSZ] at *
      omega
    have hlenacc : (enc.take (p * PARTSZ)).length = p * PARTSZ := by
      rw [List.length_take]
      omega
    have hnext : itemNext st (xkey ino hsh id p) (xkey ino U32MAX U64MAX 0) =
        some (xkey ino hsh id p, chunkAt enc p) :=
      itemNext_self (hsing.1 p hnp) (keyLe_last hhsh hid)
    rw [gnxLoop, hnext]
    dsimp only
    rw [if_neg (fun hc => hc rfl)]
    rw [if_neg (fun hc => absurd hc.1 (by omega))]
    rw [if_neg (fun hc => absurd hc.1 (by omega))]
    have hacc2 : enc.take (p * PARTSZ) ++
        (chunkAt enc p).take (bytes - p * PARTSZ) =
        enc.take (min ((p + 1) * PARTSZ) bytes) := by
      rw [chunkAt, List.take_take, ← List.take_add]
      congr 1
      simp only [PARTSZ] at *
      omega
    rw [hlenacc, hacc2]
    by_cases hstop : bytes ≤ (p + 1) * PARTSZ
    · have hmin : min ((p + 1) * PARTSZ) bytes = bytes := by omega
      rw [hmin]
      have hcond : (enc.take bytes).length = bytes ∨ p = n - 1 := by
        by_cases hbl : bytes ≤ enc.length
        · left
          rw [List.length_take]
          omega
        · right
          simp only [PARTSZ] at *
          omega
      rw [if_pos hcond]
      exact ⟨p, rfl⟩
    · have hmin : min ((p + 1) * PARTSZ) bytes = (p + 1) * PARTSZ := by omega
      rw [hmin]
      by_cases hlast : p = n - 1
      · have hTL : enc.length ≤ (p + 1) * PARTSZ := by
          simp only [PARTSZ] at *
          omega
        have he1 : enc.take ((p + 1) * PARTSZ) = enc := List.take_of_length_le hTL
        have he2 : enc.take bytes = enc := by
          apply List.take_of_length_le
          omega
        rw [if_pos (Or.inr hlast), he1, he2]
        exact ⟨p, rfl⟩
      · have hppn : p + 1 ≤ n - 1 := by omega
        have hcond : ¬ ((enc.take ((p + 1) * PARTSZ)).length = bytes ∨ p = n - 1) := by
          rintro (hc | hc)
          · rw [List.length_take] at hc
            have : (p + 1) * PARTSZ ≤ (n - 1) * PARTSZ :=
              Nat.mul_le_mul_right _ hppn
            omega
          · exact hlast hc
        rw [if_neg hcond]
        exact ih (p + 1) (by omega) hppn (by omega) (by omega)

/-- Reading the continuation parts when the store has only parts
`0 .. m-1` of an instance whose header declares `n > m` parts: the loop
hits the missing part and fails with `EIO` (corruption), not `ENOENT`. -/
theorem gnxLoop_tail_incomplete {st : Store} {ino hsh id n m bytes : Nat}
    {enc : List Nat} (name : List Nat)
    (hsing : singleXattrStore st ino hsh id m enc)
    (hn : n = (chunksOf enc).length)
    (hhsh : hsh < 2 ^ 32) (hid : id < 2 ^ 64 - 1)
    (hm : m < n) (hbig : m * PARTSZ < bytes) :
    ∀ fuel p, 1 ≤ p → p ≤ m → m - p < fuel →
    gnxLoop st ino bytes name (xkey ino U32MAX U64MAX 0) fuel hsh id p
        (n - 1) (enc.take (p * PARTSZ)) = .error .eio := by
  have hceil : n = (enc.length + PARTSZ - 1) / PARTSZ := by
    rw [hn, chunksOf_length]
  intro fuel
  induction fuel with
  | zero => intro p hp1 hpm hfuel; omega
  | succ fuel ih =>
    intro p hp1 hpm hfuel
    have hL1 : (n - 1) * PARTSZ < enc.length := by
      simp only [PARTSZ] at *
      omega
    by_cases hpm2 : p = m
    · subst hpm2
      have hnone : itemNext st (xkey ino hsh id p) (xkey ino U32MAX U64MAX 0) =
          none := by
        rw [itemNext_none_iff]
        intro e he hc
        rcases hsing.2.1 e he with ⟨q, hq, hkq⟩
        rw [hkq, keyLe_xkey_iff] at hc
        rcases hc.1 with h | ⟨_, h | ⟨_, h | ⟨_, h⟩⟩⟩ <;> omega
      rw [gnxLoop, hnone]
      dsimp only
      rw [if_pos (by omega)]
    · have hplm : p < m := by omega
      have hnp : p < n := by omega
      have hLn : enc.length ≤ n * PARTSZ := by
        simp only [PARTSZ] at *
        omega
      have hpL : p * PARTSZ < enc.length := by
        have : p * PARTSZ ≤ (n - 1) * PARTSZ := Nat.mul_le_mul_right _ (by omega)
        omega
      have hlenacc : (enc.take (p * PARTSZ)).length = p * PARTSZ := by
        rw [List.length_take]
        omega
      have hnext : itemNext st (xkey ino hsh id p) (xkey ino U32MAX U64MAX 0) =
          some (xkey ino hsh id p, chunkAt enc p) :=
        itemNext_self (hsing.1 p hplm) (keyLe_last hhsh hid)
      rw [gnxLoop, hnext]
      dsimp only
      rw [if_neg (fun hc => hc rfl)]
      rw [if_neg (fun hc => absurd hc.1 (by omega))]
      rw [if_neg (fun hc => absurd hc.1 (by omega))]
      have hacc2 : enc.take (p * PARTSZ) ++
          (chunkAt enc p).take (bytes - p * PARTSZ) =
          enc.take (min ((p + 1) * PARTSZ) bytes) := by
        rw [chunkAt, List.take_take, ← List.take_add]
        congr 1
        simp only [PARTSZ] at *
        omega
      rw [hlenacc, hacc2]
      have hp1m : (p + 1) * PARTSZ ≤ m * PARTSZ := Nat.mul_le_mul_right _ (by omega)
      have hmn1 : m * PARTSZ ≤ (n - 1) * PARTSZ := Nat.mul_le_mul_right _ (by omega)
      have hmin : min ((p + 1) * PARTSZ) bytes = (p + 1) * PARTSZ := by omega
      rw [hmin]
      have hcond : ¬ ((enc.take ((p + 1) * PARTSZ)).length = bytes ∨ p = n - 1) := by
        rintro (hc | hc)
        · rw [List.length_take] at hc
          omega
        · omega
      rw [if_neg hcond]
      exact ih (p + 1) (by omega) (by omega) (by omega)

/-- Looking up `name` in a store holding exactly the items of one complete
xattr named `name`: `get_next_xattr` returns the first `bytes` bytes of
its serialization (limited by the xattr's length). -/
theorem gnx_byname_complete {st : Store} {ino id n : Nat}
    {name val : List Nat} {hashF : List Nat → Nat} (bytes : Nat)
    (hsing : singleXattrStore st ino (hashF name) id n (xattrEncode name val))
    (hn : n = (chunksOf (xattrEncode name val)).length)
    (hhsh : hashF name < 2 ^ 32) (hid : id < 2 ^ 64 - 1)
    (hnl0 : 0 < name.length) (hnl : name.length ≤ MAXNAME)
    (hvl : val.length ≤ MAXVAL)
    (hbytes : 3 + name.length ≤ bytes) :
    ∃ pk, get_next_xattr hashF st ino bytes name 0 0 =
      .ok (xkey ino (hashF name) id pk, (xattrEncode name val).take bytes) := by
  set enc := xattrEncode name val with hencdef
  have hL : enc.length = 3 + name.length + val.length := xattrEncode_length name val
  have hceil : n = (enc.length + PARTSZ - 1) / PARTSZ := by
    rw [hn, chunksOf_length]
  have hn1 : 1 ≤ n := by
    simp only [PARTSZ] at hceil
    simp only [MAXNAME] at hnl
    omega
  rw [get_next_xattr, if_neg (fun hc => by omega), if_pos hnl0]
  have hfuel : n ≤ st.length := le_trans (le_of_eq rfl) hsing.2.2
  obtain ⟨flen, hflen⟩ : ∃ flen, st.length + 1 = flen + 1 := ⟨st.length, rfl⟩
  rw [hflen]
  have hnext : itemNext st (xkey ino (hashF name) 0 0)
      (xkey ino U32MAX U64MAX 0) =
      some (xkey ino (hashF name) id 0, chunkAt enc 0) := by
    apply itemNext_eq_some (hsing.1 0 (by omega))
    · rw [keyLe_xkey_iff]
      omega
    · exact keyLe_last hhsh hid
    · intro e he _ _
      rcases hsing.2.1 e he with ⟨q, hq, hkq⟩
      rw [hkq, keyLe_xkey_iff]
      omega
  rw [gnxLoop, hnext]
  dsimp only
  rw [if_neg (fun hc => hc rfl)]
  have hacc2 : (([] : List Nat) ++ (chunkAt enc 0).take (bytes - ([] : List Nat).length)) =
      enc.take (min bytes PARTSZ) := by
    rw [List.nil_append, chunkAt, Nat.zero_mul, List.drop_zero, List.take_take]
    rfl
  rw [hacc2]
  have hmint : 3 + name.length ≤ min bytes PARTSZ := by
    simp only [PARTSZ]
    simp only [MAXNAME] at hnl
    omega
  have hlent : (enc.take (min bytes PARTSZ)).length = min (min bytes PARTSZ) enc.length := by
    rw [List.length_take]
  have hbnl : bufNameLen (enc.take (min bytes PARTSZ)) = name.length :=
    bufNameLen_take (by omega)
  have hbvl : bufValLen (enc.take (min bytes PARTSZ)) = val.length :=
    bufValLen_take (by omega) hvl
  have hhdr : ¬ hdrBad name.length (enc.take (min bytes PARTSZ)) := by
    rintro (h | h | h | h)
    · omega
    · rw [hbnl] at h
      omega
    · rw [hbnl] at h
      exact absurd h (by omega)
    · rw [hbvl] at h
      exact absurd h (by omega)
  rw [if_neg (fun hc => hhdr hc.2), if_pos ⟨rfl, hnl0⟩,
    if_neg (fun hc => hc rfl)]
  have hmatch : bufNameMatches name (enc.take (min bytes PARTSZ)) := by
    refine ⟨hbnl.symm, ?_⟩
    rw [hbnl]
    exact encode_name_slice (by omega)
  rw [if_neg (fun hc => hc hmatch)]
  rw [hbnl, hbvl]
  have hnrn : xattr_nr_parts_len name.length val.length = n := by
    rw [xattr_nr_parts_len, hceil, hL]
  have hn220 : n ≤ 220 := by
    simp only [PARTSZ] at hceil
    simp only [MAXNAME] at hnl
    simp only [MAXVAL] at hvl
    omega
  have hlp : (xattr_nr_parts_len name.length val.length - 1) % 256 = n - 1 := by
    rw [hnrn, Nat.mod_eq_of_lt (by omega)]
  rw [hlp]
  by_cases hstop : (enc.take (min bytes PARTSZ)).length = bytes ∨ 0 = n - 1
  · rw [if_pos hstop]
    refine ⟨0, ?_⟩
    have htake : enc.take (min bytes PARTSZ) = enc.take bytes := by
      rw [List.take_eq_take]
      simp only [PARTSZ] at *
      rcases hstop with h | h
      · omega
      · omega
    rw [htake]
  · rw [if_neg hstop]
    push_neg at hstop
    obtain ⟨hs1, hs2⟩ := hstop
    have hb300 : PARTSZ < bytes := by
      simp only [PARTSZ] at *
      omega
    have ht300 : min bytes PARTSZ = PARTSZ := by omega
    rw [ht300]
    have := gnxLoop_tail_complete name hsing hn hhsh hid flen 1 (Nat.le_refl _)
      (by omega) (by simpa using hb300) (by omega)
    rcases this with ⟨pk, hpk⟩
    refine ⟨pk, ?_⟩
    rw [show PARTSZ = 1 * PARTSZ from (Nat.one_mul _).symm]
    exact hpk

/-- Looking up `name` when the store holds only parts `0 .. m-1` of an
xattr named `name` whose header declares `n > m` parts, with a buffer
needing a missing part: corruption (`EIO`), never `ENOENT`. -/
theorem gnx_byname_incomplete {st : Store} {ino id n m : Nat}
    {name val : List Nat} {hashF : List Nat → Nat} {bytes : Nat}
    (hsing : singleXattrStore st ino (hashF name) id m (xattrEncode name val))
    (hn : n = (chunksOf (xattrEncode name val)).length)
    (hhsh : hashF name < 2 ^ 32) (hid : id < 2 ^ 64 - 1)
    (hm1 : 1 ≤ m) (hmn : m < n)
    (hnl0 : 0 < name.length) (hnl : name.length ≤ MAXNAME)
    (hvl : val.length ≤ MAXVAL)
    (hbig : m * PARTSZ < bytes) :
    get_next_xattr hashF st ino bytes name 0 0 = .error .eio := by
  set enc := xattrEncode name val with hencdef
  have hL : enc.length = 3 + name.length + val.length := xattrEncode_length name val
  have hceil : n = (enc.length + PARTSZ - 1) / PARTSZ := by
    rw [hn, chunksOf_length]
  have hn2 : 2 ≤ n := by omega
  have hbytes : 3 + name.length ≤ bytes := by
    simp only [PARTSZ] at hbig
    simp only [MAXNAME] at hnl
    omega
  rw [get_next_xattr, if_neg (fun hc => by omega), if_pos hnl0]
  have hfuel : m ≤ st.length := hsing.2.2
  obtain ⟨flen, hflen⟩ : ∃ flen, st.length + 1 = flen + 1 := ⟨st.length, rfl⟩
  rw [hflen]
  have hnext : itemNext st (xkey ino (hashF name) 0 0)
      (xkey ino U32MAX U64MAX 0) =
      some (xkey ino (hashF name) id 0, chunkAt enc 0) := by
    apply itemNext_eq_some (hsing.1 0 (by omega))
    · rw [keyLe_xkey_iff]
      omega
    · exact keyLe_last hhsh hid
    · intro e he _ _
      rcases hsing.2.1 e he with ⟨q, hq, hkq⟩
      rw [hkq, keyLe_xkey_iff]
      omega
  rw [gnxLoop, hnext]
  dsimp only
  rw [if_neg (fun hc => hc rfl)]
  have hacc2 : (([] : List Nat) ++ (chunkAt enc 0).take (bytes - ([] : List Nat).length)) =
      enc.take (min bytes PARTSZ) := by
    rw [List.nil_append, chunkAt, Nat.zero_mul, List.drop_zero, List.take_take]
    rfl
  rw [hacc2]
  have hmint : 3 + name.length ≤ min bytes PARTSZ := by
    simp only [PARTSZ] at *
    simp only [MAXNAME] at hnl
    omega
  have hlent : (enc.take (min bytes PARTSZ)).length = min (min bytes PARTSZ) enc.length := by
    rw [List.length_take]
  have hbnl : bufNameLen (enc.take (min bytes PARTSZ)) = name.length :=
    bufNameLen_take (by omega)
  have hbvl : bufValLen (enc.take (min bytes PARTSZ)) = val.length :=
    bufValLen_take (by omega) hvl
  have hhdr : ¬ hdrBad name.length (enc.take (min bytes PARTSZ)) := by
    rintro (h | h | h | h)
    · omega
    · rw [hbnl] at h
      omega
    · rw [hbnl] at h
      exact absurd h (by omega)
    · rw [hbvl] at h
      exact absurd h (by omega)
  rw [if_neg (fun hc => hhdr hc.2), if_pos ⟨rfl, hnl0⟩,
    if_neg (fun hc => hc rfl)]
  have hmatch : bufNameMatches name (enc.take (min bytes PARTSZ)) := by
    refine ⟨hbnl.symm, ?_⟩
    rw [hbnl]
    exact encode_name_slice (by omega)
  rw [if_neg (fun hc => hc hmatch)]
  rw [hbnl, hbvl]
  have hnrn : xattr_nr_parts_len name.length val.length = n := by
    rw [xattr_nr_parts_len, hceil, hL]
  have hn220 : n ≤ 220 := by
    simp only [PARTSZ] at hceil
    simp only [MAXNAME] at hnl
    simp only [MAXVAL] at hvl
    omega
  have hlp : (xattr_nr_parts_len name.length val.length - 1) % 256 = n - 1 := by
    rw [hnrn, Nat.mod_eq_of_lt (by omega)]
  rw [hlp]
  have hb300 : PARTSZ < bytes := by
    have : PARTSZ ≤ m * PARTSZ := Nat.le_mul_of_pos_left _ (by omega)
    omega
  have hL300 : PARTSZ < enc.length := by
    simp only [PARTSZ] at *
    omega
  have hcond : ¬ ((enc.take (min bytes PARTSZ)).length = bytes ∨ 0 = n - 1) := by
    rintro (hc | hc)
    · rw [hlent] at hc
      simp only [PARTSZ] at *
      omega
    · omega
  rw [if_neg hcond]
  have ht300 : min bytes PARTSZ = PARTSZ := by omega
  rw [ht300]
  have := gnxLoop_tail_incomplete name hsing hn hhsh hid hmn hbig flen 1
    (Nat.le_refl _) hm1 (by omega)
  rw [show PARTSZ = 1 * PARTSZ from (Nat.one_mul _).symm]
  exact this

/-- Searching any position of a store with no items for the inode fails
with `ENOENT` (part 0 was never found). -/
theorem gnx_noino {st : Store} {ino bytes nameHash id : Nat}
    {name : List Nat} {hashF : List Nat → Nat}
    (hno : noInoItems st ino)
    (hbytes : ¬ (0 < name.length ∧ bytes < 3 + name.length)) :
    get_next_xattr hashF st ino bytes name nameHash id = .error .enoent := by
  rw [get_next_xattr, if_neg hbytes]
  obtain ⟨flen, hflen⟩ : ∃ flen, st.length + 1 = flen + 1 := ⟨st.length, rfl⟩
  rw [hflen]
  have hnone : ∀ h0 i0, itemNext st (xkey ino h0 i0 0)
      (xkey ino U32MAX U64MAX 0) = none := by
    intro h0 i0
    rw [itemNext_none_iff]
    intro e he hc
    apply hno e he
    rcases hc.1 with h | ⟨h, _⟩
    · rcases hc.2 with h2 | ⟨h2, _⟩
      · simp only [xkey] at h h2
        omega
      · simp only [xkey] at h2
        omega
    · simp only [xkey] at h
      omega
  rw [gnxLoop, hnone]
  dsimp only
  rw [if_neg (by omega)]

theorem bufNameLen_encode (name val : List Nat) :
    bufNameLen (xattrEncode name val) = name.length := rfl

theorem bufValLen_encode {name val : List Nat} (hv : val.length ≤ MAXVAL) :
    bufValLen (xattrEncode name val) = val.length := by
  show val.length % 256 + 256 * (val.length / 256) = val.length
  omega

/-- A name accepted by the namespace check is nonempty. -/
theorem nl_pos_of_pfx {name : List Nat} (h : ¬ unknown_pfx name) :
    0 < name.length := by
  rcases name with _ | ⟨a, rest⟩
  · exact absurd ⟨by simp [userPfx], by simp [trustedPfx], by simp [systemPfx],
      by simp [securityPfx]⟩ h
  · simp

/-! ## `scoutfs_getxattr` on a single-instance store -/

/-- Round trip: `get` with a buffer at least as large as the stored value
returns exactly the stored value and its length. -/
theorem getxattr_single_ok {st : Store} {ino id n s : Nat}
    {name val : List Nat} {hashF : List Nat → Nat}
    (hsing : singleXattrStore st ino (hashF name) id n (xattrEncode name val))
    (hn : n = (chunksOf (xattrEncode name val)).length)
    (hhsh : hashF name < 2 ^ 32) (hid : id < 2 ^ 64 - 1)
    (hpfx : ¬ unknown_pfx name) (hnl : name.length ≤ MAXNAME)
    (hvl : val.length ≤ MAXVAL) (hs : val.length ≤ s) :
    scoutfs_getxattr hashF st ino name s = .ok (val.length, val) := by
  have hnl0 := nl_pos_of_pfx hpfx
  have hL : (xattrEncode name val).length = 3 + name.length + val.length :=
    xattrEncode_length name val
  rw [scoutfs_getxattr, if_neg hpfx,
    if_neg (show ¬ name.length > MAXNAME by omega)]
  obtain ⟨pk, hgnx⟩ := gnx_byname_complete (3 + name.length + s) hsing hn hhsh
    hid hnl0 hnl hvl (by omega)
  rw [hgnx]
  dsimp only
  by_cases hs0 : s = 0
  · subst hs0
    rw [if_pos rfl]
    have hval : val = [] := List.eq_nil_of_length_eq_zero (by omega)
    subst hval
    rw [bufValLen_take (by omega) hvl]
  · rw [if_neg hs0]
    have hbuf : (xattrEncode name val).take (3 + name.length + s) =
        xattrEncode name val := List.take_of_length_le (by omega)
    rw [hbuf, bufValLen_encode hvl, bufNameLen_encode,
      if_neg (show ¬ s < val.length by omega)]
    rw [if_neg (show ¬ (xattrEncode name val).length <
        xattr_full_bytes name.length val.length from by
      rw [hL, xattr_full_bytes]; omega)]
    rw [encode_val_slice]

/-- `get` with a positive buffer smaller than the stored value fails with
`ERANGE` and hands back no value bytes. -/
theorem getxattr_single_erange {st : Store} {ino id n s : Nat}
    {name val : List Nat} {hashF : List Nat → Nat}
    (hsing : singleXattrStore st ino (hashF name) id n (xattrEncode name val))
    (hn : n = (chunksOf (xattrEncode name val)).length)
    (hhsh : hashF name < 2 ^ 32) (hid : id < 2 ^ 64 - 1)
    (hpfx : ¬ unknown_pfx name) (hnl : name.length ≤ MAXNAME)
    (hvl : val.length ≤ MAXVAL) (hs0 : 0 < s) (hs : s < val.length) :
    scoutfs_getxattr hashF st ino name s = .error .erange := by
  have hnl0 := nl_pos_of_pfx hpfx
  rw [scoutfs_getxattr, if_neg hpfx,
    if_neg (show ¬ name.length > MAXNAME by omega)]
  obtain ⟨pk, hgnx⟩ := gnx_byname_complete (3 + name.length + s) hsing hn hhsh
    hid hnl0 hnl hvl (by omega)
  rw [hgnx]
  dsimp only
  rw [if_neg (show ¬ s = 0 by omega)]
  have hbvl : bufValLen ((xattrEncode name val).take (3 + name.length + s)) =
      val.length := bufValLen_take (by omega) hvl
  rw [hbvl, if_pos hs]

/-- `get` with a zero-sized buffer returns the stored value's length
without copying anything. -/
theorem getxattr_single_sizeq {st : Store} {ino id n : Nat}
    {name val : List Nat} {hashF : List Nat → Nat}
    (hsing : singleXattrStore st ino (hashF name) id n (xattrEncode name val))
    (hn : n = (chunksOf (xattrEncode name val)).length)
    (hhsh : hashF name < 2 ^ 32) (hid : id < 2 ^ 64 - 1)
    (hpfx : ¬ unknown_pfx name) (hnl : name.length ≤ MAXNAME)
    (hvl : val.length ≤ MAXVAL) :
    scoutfs_getxattr hashF st ino name 0 = .ok (val.length, []) := by
  have hnl0 := nl_pos_of_pfx hpfx
  rw [scoutfs_getxattr, if_neg hpfx,
    if_neg (show ¬ name.length > MAXNAME by omega)]
  obtain ⟨pk, hgnx⟩ := gnx_byname_complete (3 + name.length + 0) hsing hn hhsh
    hid hnl0 hnl hvl (by omega)
  rw [hgnx]
  dsimp only
  rw [if_pos rfl, bufValLen_take (by omega) hvl]

/-- `get` over a store missing a continuation part (parts `0 .. m-1` of a
declared `n > m` part xattr) fails with `EIO`, for any buffer size
covering the declared value. -/
theorem getxattr_single_eio {st : Store} {ino id n m s : Nat}
    {name val : List Nat} {hashF : List Nat → Nat}
    (hsing : singleXattrStore st ino (hashF name) id m (xattrEncode name val))
    (hn : n = (chunksOf (xattrEncode name val)).length)
    (hhsh : hashF name < 2 ^ 32) (hid : id < 2 ^ 64 - 1)
    (hpfx : ¬ unknown_pfx name) (hnl : name.length ≤ MAXNAME)
    (hvl : val.length ≤ MAXVAL) (hm1 : 1 ≤ m) (hmn : m < n)
    (hs : val.length ≤ s) :
    scoutfs_getxattr hashF st ino name s = .error .eio := by
  have hnl0 := nl_pos_of_pfx hpfx
  have hL : (xattrEncode name val).length = 3 + name.length + val.length :=
    xattrEncode_length name val
  have hceil : n = ((xattrEncode name val).length + PARTSZ - 1) / PARTSZ := by
    rw [hn, chunksOf_length]
  rw [scoutfs_getxattr, if_neg hpfx,
    if_neg (show ¬ name.length > MAXNAME by omega)]
  have hbig : m * PARTSZ < 3 + name.length + s := by
    have h1 : m * PARTSZ ≤ (n - 1) * PARTSZ := Nat.mul_le_mul_right _ (by omega)
    simp only [PARTSZ] at *
    omega
  rw [gnx_byname_incomplete hsing hn hhsh hid hm1 hmn hnl0 hnl hvl hbig]

/-- `get` on a store with no items for the inode fails with `ENODATA`. -/
theorem getxattr_noino {st : Store} {ino s : Nat} {name : List Nat}
    {hashF : List Nat → Nat}
    (hno : noInoItems st ino)
    (hpfx : ¬ unknown_pfx name) (hnl : name.length ≤ MAXNAME) :
    scoutfs_getxattr hashF st ino name s = .error .enodata := by
  rw [scoutfs_getxattr, if_neg hpfx,
    if_neg (show ¬ name.length > MAXNAME by omega)]
  rw [gnx_noino hno (show ¬ (0 < name.length ∧
    3 + name.length + s < 3 + name.length) by omega)]

/-! ## Store shape lemmas for the mutation path -/

theorem chunksOf_length_eq_nr_parts (name val : List Nat) :
    (chunksOf (xattrEncode name val)).length =
      xattr_nr_parts_len name.length val.length := by
  rw [chunksOf_length, xattrEncode_length, xattr_nr_parts_len]

theorem nr_parts_le_220 {nl vl : Nat} (hnl : nl ≤ MAXNAME) (hvl : vl ≤ MAXVAL) :
    xattr_nr_parts_len nl vl ≤ 220 := by
  rw [xattr_nr_parts_len]
  simp only [PARTSZ, MAXNAME, MAXVAL] at *
  omega

theorem partsFrom_append (ino hsh id q : Nat) (cs ds : List (List Nat)) :
    partsFrom ino hsh id q (cs ++ ds) =
      partsFrom ino hsh id q cs ++ partsFrom ino hsh id (q + cs.length) ds := by
  induction cs generalizing q with
  | nil => simp [partsFrom]
  | cons c rest ih =>
    simp only [List.cons_append, partsFrom, List.length_cons]
    rw [List.append_eq, ih (q + 1)]
    have harith : q + 1 + rest.length = q + (rest.length + 1) := by omega
    rw [harith]

theorem partsFrom_pairwise (ino hsh id q : Nat) (cs : List (List Nat)) :
    (partsFrom ino hsh id q cs).Pairwise (fun a b => a.1 ≠ b.1) := by
  induction cs generalizing q with
  | nil => exact List.Pairwise.nil
  | cons c rest ih =>
    refine List.Pairwise.cons ?_ (ih (q + 1))
    intro e he
    rcases mem_partsFrom he with ⟨p, hp1, _, hkp⟩
    rw [hkp]
    simp only [xkey, ne_eq, Key.mk.injEq]
    omega

theorem findItem_eq_some_iff_mem {st : Store}
    (hnd : st.Pairwise (fun a b => a.1 ≠ b.1)) {k : Key} {v : List Nat} :
    findItem st k = some v ↔ (k, v) ∈ st := by
  constructor
  · exact findItem_mem
  · induction st with
    | nil => intro h; cases h
    | cons e rest ih =>
      intro hm
      rw [findItem_cons]
      rcases List.mem_cons.mp hm with hm | hm
      · subst hm
        simp
      · have hne : e.1 ≠ k := by
          intro hc
          have := List.rel_of_pairwise_cons hnd hm
          exact this (by rw [hc])
        rw [if_neg hne]
        exact ih (List.Pairwise.sublist (List.sublist_cons_self _ _) hnd) hm

theorem findItem_reverse {st : Store}
    (hnd : st.Pairwise (fun a b => a.1 ≠ b.1)) (k : Key) :
    findItem st.reverse k = findItem st k := by
  have hndr : st.reverse.Pairwise (fun a b => a.1 ≠ b.1) := by
    rw [List.pairwise_reverse]
    exact hnd.imp (fun h => Ne.symm h)
  rcases hf : findItem st k with _ | v
  · rw [findItem_eq_none_iff] at hf ⊢
    intro e he
    exact hf e (List.mem_reverse.mp he)
  · rw [findItem_eq_some_iff_mem hndr]
    rw [findItem_eq_some_iff_mem hnd] at hf
    exact List.mem_reverse.mpr hf

/-- The reverse of a full parts store is a `singleXattrStore` as well:
this is the store a fresh creation leaves behind. -/
theorem xattrItems_reverse_single (ino hsh id : Nat) (enc : List Nat) :
    singleXattrStore ((xattrItems ino hsh id enc).reverse) ino hsh id
      (chunksOf enc).length enc := by
  obtain ⟨h1, h2, h3⟩ := xattrItems_single ino hsh id enc
  refine ⟨?_, ?_, ?_⟩
  · intro p hp
    rw [xattrItems, findItem_reverse (partsFrom_pairwise ino hsh id 0 (chunksOf enc))]
    rw [← xattrItems]
    exact h1 p hp
  · intro e he
    exact h2 e (List.mem_reverse.mp he)
  · rw [List.length_reverse]
    exact h3

theorem create_eq_ok {faults : Key → Bool} {st : Store} {k : Key}
    {v : List Nat} (hf : faults k = false) (ha : findItem st k = none) :
    scoutfs_item_create faults st k v = .ok ((k, v) :: st) := by
  rw [scoutfs_item_create, if_neg (by rw [hf]; simp), ha]
  simp

theorem create_eq_fault {faults : Key → Bool} {st : Store} {k : Key}
    {v : List Nat} (hf : faults k = true) :
    scoutfs_item_create faults st k v = .error .eio := by
  rw [scoutfs_item_create, if_pos hf]

/-- `delete_xattr_items` over a store that is exactly the parts of the
xattr: all items are staged onto the rollback list in part order, leaving
the store empty. -/
theorem dxiLoop_all (ino hsh id : Nat) (cs : List (List Nat)) :
    ∀ q saved, dxiLoop ino hsh id (partsFrom ino hsh id q cs) saved q cs.length =
      (.ok (), [], saved ++ partsFrom ino hsh id q cs) := by
  induction cs with
  | nil =>
    intro q saved
    simp [dxiLoop, partsFrom]
  | cons c rest ih =>
    intro q saved
    show dxiLoop ino hsh id ((xkey ino hsh id q, c) :: partsFrom ino hsh id (q + 1) rest)
      saved q (rest.length + 1) = _
    rw [dxiLoop]
    have hf : findItem ((xkey ino hsh id q, c) :: partsFrom ino hsh id (q + 1) rest)
        (xkey ino hsh id q) = some c := by
      rw [findItem_cons, if_pos rfl]
    rw [scoutfs_item_delete_save, hf]
    dsimp only
    have herase : List.eraseP (fun e => e.1 == xkey ino hsh id q)
        ((xkey ino hsh id q, c) :: partsFrom ino hsh id (q + 1) rest) =
        partsFrom ino hsh id (q + 1) rest := List.eraseP_cons_of_pos (by simp)
    rw [herase, ih (q + 1) (saved ++ [(xkey ino hsh id q, c)])]
    rw [List.append_assoc]
    rfl

theorem delete_xattr_items_all (ino hsh id : Nat) (enc : List Nat) :
    delete_xattr_items (xattrItems ino hsh id enc) ino hsh id
      (chunksOf enc).length = (.ok (), [], xattrItems ino hsh id enc) := by
  rw [delete_xattr_items, xattrItems, dxiLoop_all]
  rfl

/-- `create_xattr_items`' loop with no faults and fresh keys: every part
is created (prepended), in ascending part order. -/
theorem cxiLoop_ok (faults : Key → Bool) (ino hsh id : Nat)
    (cs : List (List Nat)) :
    ∀ q st,
      (∀ p, q ≤ p → p < q + cs.length → findItem st (xkey ino hsh id p) = none) →
      (∀ p, q ≤ p → p < q + cs.length → faults (xkey ino hsh id p) = false) →
      cxiLoop faults ino hsh id st q cs =
        (.ok (), (partsFrom ino hsh id q cs).reverse ++ st) := by
  induction cs with
  | nil =>
    intro q st _ _
    simp [cxiLoop, partsFrom]
  | cons c rest ih =>
    intro q st habs hflt
    rw [cxiLoop, create_eq_ok (hflt q (Nat.le_refl _) (by simp))
      (habs q (Nat.le_refl _) (by simp))]
    dsimp only
    rw [ih (q + 1) ((xkey ino hsh id q, c) :: st) ?habs2 ?hflt2]
    · rw [partsFrom, List.reverse_cons, List.append_assoc]
      rfl
    case habs2 =>
      intro p hp1 hp2
      rw [findItem_cons, if_neg (by simp [xkey]; omega)]
      exact habs p (by omega) (by simp at hp2 ⊢; omega)
    case hflt2 =>
      intro p hp1 hp2
      exact hflt p (by omega) (by simp at hp2 ⊢; omega)

/-- Deleting parts `0 .. ds.length - 1` from the store that holds exactly
those parts (most recent first) empties it. -/
theorem cleanupDirty_rev (ino hsh id : Nat) (ds : List (List Nat)) :
    cleanupDirty ((partsFrom ino hsh id 0 ds).reverse) ino hsh id ds.length = [] := by
  induction ds using List.reverseRecOn with
  | nil => simp [cleanupDirty, partsFrom]
  | append_singleton es c ih =>
    have hlen : (es ++ [c]).length = es.length + 1 := by simp
    rw [partsFrom_append ino hsh id 0 es [c], Nat.zero_add, List.reverse_append]
    have h1 : (partsFrom ino hsh id es.length [c]).reverse =
        [(xkey ino hsh id es.length, c)] := rfl
    rw [h1, List.singleton_append, hlen]
    rw [cleanupDirty] at ih ⊢
    rw [List.range_succ, List.reverse_append, List.reverse_singleton,
      List.singleton_append, List.foldl_cons]
    have herase : List.eraseP (fun e => e.1 == xkey ino hsh id es.length)
        ((xkey ino hsh id es.length, c) :: (partsFrom ino hsh id 0 es).reverse) =
        (partsFrom ino hsh id 0 es).reverse := List.eraseP_cons_of_pos (by simp)
    rw [herase]
    exact ih

theorem create_xattr_items_ok (faults : Key → Bool) (ino hsh id : Nat)
    (st : Store) (enc : List Nat)
    (habs : ∀ p, p < (chunksOf enc).length →
      findItem st (xkey ino hsh id p) = none)
    (hflt : ∀ p, p < (chunksOf enc).length →
      faults (xkey ino hsh id p) = false) :
    create_xattr_items faults st ino hsh id enc =
      (.ok (), (xattrItems ino hsh id enc).reverse ++ st) := by
  rw [create_xattr_items, xattrItems]
  rw [cxiLoop_ok faults ino hsh id (chunksOf enc) 0 st
    (fun p _ hp => habs p (by omega)) (fun p _ hp => hflt p (by omega))]

/-- `create_xattr_items`' loop when the single faulty key is part `j` of
this very xattr: parts `q .. j-1` are created and then deleted again by
the cleanup path, returning the error with an empty store. -/
theorem cxiLoop_fault (ino hsh id j : Nat) :
    ∀ cs : List (List Nat), ∀ q ds, q ≤ j → j < q + cs.length →
      (ds : List (List Nat)).length = q →
      cxiLoop (fun k => k == xkey ino hsh id j) ino hsh id
        ((partsFrom ino hsh id 0 ds).reverse) q cs = (.error .eio, []) := by
  intro cs
  induction cs with
  | nil =>
    intro q ds h1 h2 _
    simp only [List.length_nil] at h2
    omega
  | cons c rest ih =>
    intro q ds hqj hjlen hds
    by_cases hq : q = j
    · subst hq
      rw [cxiLoop, create_eq_fault (by simp)]
      dsimp only
      rw [← hds, cleanupDirty_rev]
    · have hfault : (fun k => k == xkey ino hsh id j) (xkey ino hsh id q) = false := by
        simp only [beq_eq_false_iff_ne, ne_eq, xkey, Key.mk.injEq]
        omega
      have habs : findItem ((partsFrom ino hsh id 0 ds).reverse)
          (xkey ino hsh id q) = none := by
        rw [findItem_reverse (partsFrom_pairwise ino hsh id 0 ds),
          findItem_partsFrom, if_neg (by omega)]
      rw [cxiLoop, @create_eq_ok (fun k => k == xkey ino hsh id j)
        ((partsFrom ino hsh id 0 ds).reverse) (xkey ino hsh id q) c hfault habs]
      dsimp only
      have hstack : (xkey ino hsh id q, c) :: (partsFrom ino hsh id 0 ds).reverse =
          (partsFrom ino hsh id 0 (ds ++ [c])).reverse := by
        rw [partsFrom_append ino hsh id 0 ds [c], Nat.zero_add, hds,
          List.reverse_append]
        rfl
      rw [hstack]
      exact ih (q + 1) (ds ++ [c]) (by omega) (by simp at hjlen ⊢; omega)
        (by simp [hds])

theorem create_xattr_items_fault (ino hsh id j : Nat) (enc : List Nat)
    (hj : j < (chunksOf enc).length) :
    create_xattr_items (fun k => k == xkey ino hsh id j) [] ino hsh id enc =
      (.error .eio, []) := by
  rw [create_xattr_items]
  have := cxiLoop_fault ino hsh id j (chunksOf enc) 0 [] (by omega)
    (by simpa using hj) rfl
  simpa using this

/-! ## `scoutfs_xattr_set` paths -/

theorem noInoItems_nil (ino : Nat) : noInoItems [] ino :=
  fun e he => absurd he (List.not_mem_nil e)

/-- Creating a fresh xattr in an empty store: the set succeeds, holds a
transaction, bumps the id counter and leaves exactly the new parts. -/
theorem xattr_set_fresh (hashF : List Nat → Nat) (ino nid : Nat)
    (name v : List Nat)
    (hpfx : ¬ unknown_pfx name) (hnl : name.length ≤ MAXNAME)
    (hvl : v.length ≤ MAXVAL) :
    scoutfs_xattr_set hashF (fun _ => false) [] ino nid name (some v) 0 =
      ⟨.ok (), (xattrItems ino (hashF name) nid (xattrEncode name v)).reverse,
        nid + 1, true⟩ := by
  rw [scoutfs_xattr_set, if_neg (show ¬ name.length > MAXNAME by omega)]
  rw [if_neg (fun hc => absurd hc.2 (show ¬ ((some v).getD []).length > MAXVAL
    from by simp; omega))]
  rw [if_neg (by decide), if_neg hpfx]
  rw [gnx_noino (noInoItems_nil ino) (by omega)]
  dsimp only
  rw [if_neg (by decide), if_neg (by simp)]
  rw [xattrSetCommit, if_neg (by omega)]
  dsimp only
  rw [if_pos (show (some v).isSome = true from rfl)]
  simp only [Option.getD_some]
  rw [create_xattr_items_ok _ ino (hashF name) nid [] (xattrEncode name v)
    (fun p _ => rfl) (fun p _ => rfl)]
  dsimp only
  rw [List.append_nil]

/-! ## Claims -/

/-- C1: for every name within the namespace and length limits and every
value `V` with `len(V) ≤ MAX_VAL_LEN`, a successful `set(name, V)`
followed by `get(name, buffer, size)` with `size ≥ len(V)` returns exactly
the bytes of `V` and the return value equals `len(V)`.  (The set is run on
a file with no prior xattr items; `hashF` is any u32-valued hash and the
id counter any value below the key space's maximum.) -/
theorem claim_C1_roundtrip (hashF : List Nat → Nat) (ino nid : Nat)
    (name v : List Nat) (s : Nat)
    (hhr : ∀ l, hashF l < 2 ^ 32) (hid : nid < 2 ^ 64 - 1)
    (hpfx : ¬ unknown_pfx name) (hnl : name.length ≤ MAXNAME)
    (hvl : v.length ≤ MAXVAL) (hs : v.length ≤ s) :
    (scoutfs_xattr_set hashF (fun _ => false) [] ino nid name (some v) 0).ret =
      .ok () ∧
    scoutfs_getxattr hashF
      (scoutfs_xattr_set hashF (fun _ => false) [] ino nid name (some v) 0).store
      ino name s = .ok (v.length, v) := by
  rw [xattr_set_fresh hashF ino nid name v hpfx hnl hvl]
  exact ⟨rfl, getxattr_single_ok
    (xattrItems_reverse_single ino (hashF name) nid (xattrEncode name v))
    rfl (hhr name) hid hpfx hnl hvl hs⟩

theorem claim_C1_roundtrip_witness :
    (scoutfs_xattr_set (fun _ => 0) (fun _ => false) [] 7 0 nmUserA
      (some [1, 2, 3]) 0).ret = .ok () ∧
    scoutfs_getxattr (fun _ => 0)
      (scoutfs_xattr_set (fun _ => 0) (fun _ => false) [] 7 0 nmUserA
        (some [1, 2, 3]) 0).store 7 nmUserA 3 = .ok (3, [1, 2, 3]) :=
  claim_C1_roundtrip (fun _ => 0) 7 0 nmUserA [1, 2, 3] 3
    (fun _ => show (0 : Nat) < 2 ^ 32 by decide) (by decide) (by decide)
    (by decide) (by decide) (by decide)

/-- C10: `remove(name)` is exactly the set orchestrator called with no
value (null value pointer), size 0 and exactly the `XATTR_REPLACE` flag:
same result code and same final state from any starting state. -/
theorem claim_C10_remove_refines_set (hashF : List Nat → Nat)
    (faults : Key → Bool) (st : Store) (ino nid : Nat) (name : List Nat) :
    scoutfs_removexattr hashF faults st ino nid name =
      scoutfs_xattr_set hashF faults st ino nid name none 2 := rfl

/-- C4 counterexample: `remove` of an absent name does not succeed — it
fails with `ENODATA`, because `scoutfs_removexattr` passes `XATTR_REPLACE`
and the replace check fires before the "not an error to delete something
that doesn't exist" branch. -/
theorem claim_C4_counterexample :
    (scoutfs_removexattr (fun _ => 0) (fun _ => false) [] 7 0 nmUserA).ret =
      .error .enodata ∧
    (scoutfs_removexattr (fun _ => 0) (fun _ => false) [] 7 0 nmUserA).ret ≠
      .ok () := by
  refine ⟨rfl, ?_⟩
  intro hc
  rw [show (scoutfs_removexattr (fun _ => 0) (fun _ => false) [] 7 0 nmUserA).ret =
    Except.error Err.enodata from rfl] at hc
  exact Except.noConfusion hc

/-- C4 amended: `remove(n)` on a file with no xattr named `n` (here: with
no xattr items at all) fails with `ENODATA` and performs no transaction or
item-store side effect; the store, the id counter and the transaction
state are untouched. -/
theorem claim_C4_remove_absent (hashF : List Nat → Nat) (faults : Key → Bool)
    (st : Store) (ino nid : Nat) (name : List Nat)
    (hno : noInoItems st ino)
    (hpfx : ¬ unknown_pfx name) (hnl : name.length ≤ MAXNAME) :
    scoutfs_removexattr hashF faults st ino nid name =
      ⟨.error .enodata, st, nid, false⟩ := by
  rw [scoutfs_removexattr, scoutfs_xattr_set,
    if_neg (show ¬ name.length > MAXNAME by omega)]
  rw [if_neg (fun hc => by exact absurd hc.1 (by simp))]
  rw [if_neg (by decide), if_neg hpfx]
  rw [gnx_noino hno (by omega)]
  dsimp only
  rw [if_pos (by decide)]

theorem claim_C4_remove_absent_witness :
    scoutfs_removexattr (fun _ => 0) (fun _ => false) [] 7 0 nmUserA =
      ⟨.error .enodata, [], 0, false⟩ :=
  claim_C4_remove_absent (fun _ => 0) (fun _ => false) [] 7 0 nmUserA
    (by decide) (by decide) (by decide)

/-- C8 counterexample: not every public operation rejects an over-long
name with OutOfRange — `scoutfs_getxattr` of a 256-byte name fails with
`ENODATA` (NotFound-class), not `ERANGE`. -/
theorem claim_C8_counterexample :
    scoutfs_getxattr (fun _ => 0) [] 7 nmLong 0 = .error .enodata ∧
    scoutfs_getxattr (fun _ => 0) [] 7 nmLong 0 ≠ .error .erange := by
  refine ⟨rfl, ?_⟩
  intro hc
  rw [show scoutfs_getxattr (fun _ => 0) [] 7 nmLong 0 =
    Except.error Err.enodata from rfl] at hc
  injection hc with h
  exact Err.noConfusion h

/-- C8 amended: the size validations run before any lock or item access
and have no side effects, but the error codes differ per operation:
`set` fails with `ERANGE` on a long name and `E2BIG` on a long value
(store, id counter and transaction state untouched), while `get` rejects
a long name with `ENODATA`, not OutOfRange. -/
theorem claim_C8_size_checks (hashF : List Nat → Nat) (faults : Key → Bool)
    (st : Store) (ino nid s : Nat) (name v : List Nat) :
    (name.length > MAXNAME →
      scoutfs_xattr_set hashF faults st ino nid name (some v) 0 =
        ⟨.error .erange, st, nid, false⟩) ∧
    (name.length ≤ MAXNAME → v.length > MAXVAL →
      scoutfs_xattr_set hashF faults st ino nid name (some v) 0 =
        ⟨.error .e2big, st, nid, false⟩) ∧
    (¬ unknown_pfx name → name.length > MAXNAME →
      scoutfs_getxattr hashF st ino name s = .error .enodata) := by
  refine ⟨?_, ?_, ?_⟩
  · intro hlong
    rw [scoutfs_xattr_set, if_pos hlong]
  · intro hok hbig
    rw [scoutfs_xattr_set, if_neg (show ¬ name.length > MAXNAME by omega)]
    rw [if_pos ⟨rfl, show ((some v).getD []).length > MAXVAL from by
      simp only [Option.getD_some]; omega⟩]
  · intro hpfx hlong
    rw [scoutfs_getxattr, if_neg hpfx, if_pos hlong]

theorem claim_C8_size_checks_witness :
    scoutfs_xattr_set (fun _ => 0) (fun _ => false) [] 7 0 nmLong (some [1]) 0 =
      ⟨.error .erange, [], 0, false⟩ ∧
    scoutfs_xattr_set (fun _ => 0) (fun _ => false) [] 7 0 nmUserA
      (some (List.replicate 65536 1)) 0 = ⟨.error .e2big, [], 0, false⟩ ∧
    scoutfs_getxattr (fun _ => 0) [] 7 nmLong 0 = .error .enodata :=
  ⟨(claim_C8_size_checks (fun _ => 0) (fun _ => false) [] 7 0 0 nmLong [1]).1
      (by decide),
   (claim_C8_size_checks (fun _ => 0) (fun _ => false) [] 7 0 0 nmUserA
      (List.replicate 65536 1)).2.1 (by decide)
      (by rw [List.length_replicate]; decide),
   (claim_C8_size_checks (fun _ => 0) (fun _ => false) [] 7 0 0 nmLong [1]).2.2
      (by decide) (by decide)⟩

/-- C5: with the `XATTR_CREATE` flag, `set` fails with `EEXIST` when an
xattr of that exact name exists; with `XATTR_REPLACE`, it fails with
`ENODATA` when none exists (here: the file has no xattr items); in both
failure cases the store, the id counter and the transaction state are
untouched. -/
theorem claim_C5_flags (hashF : List Nat → Nat) (faults : Key → Bool)
    (ino nid id n : Nat) (name v old : List Nat) (st stE : Store)
    (hpfx : ¬ unknown_pfx name) (hnl : name.length ≤ MAXNAME)
    (hv : v.length ≤ MAXVAL) :
    (singleXattrStore stE ino (hashF name) id n (xattrEncode name old) →
      n = (chunksOf (xattrEncode name old)).length →
      hashF name < 2 ^ 32 → id < 2 ^ 64 - 1 → old.length ≤ MAXVAL →
      scoutfs_xattr_set hashF faults stE ino nid name (some v) 1 =
        ⟨.error .eexist, stE, nid, false⟩) ∧
    (noInoItems st ino →
      scoutfs_xattr_set hashF faults st ino nid name (some v) 2 =
        ⟨.error .enodata, st, nid, false⟩) := by
  have hnl0 := nl_pos_of_pfx hpfx
  constructor
  · intro hsing hn hhsh hid hold
    rw [scoutfs_xattr_set, if_neg (show ¬ name.length > MAXNAME by omega)]
    rw [if_neg (fun hc => absurd hc.2 (show ¬ ((some v).getD []).length > MAXVAL
      from by simp only [Option.getD_some]; omega))]
    rw [if_neg (by decide), if_neg hpfx]
    obtain ⟨pk, hgnx⟩ := gnx_byname_complete (3 + name.length) hsing hn hhsh
      hid hnl0 hnl hold (by omega)
    rw [hgnx]
    dsimp only
    rw [if_pos (by decide)]
  · intro hno
    rw [scoutfs_xattr_set, if_neg (show ¬ name.length > MAXNAME by omega)]
    rw [if_neg (fun hc => absurd hc.2 (show ¬ ((some v).getD []).length > MAXVAL
      from by simp only [Option.getD_some]; omega))]
    rw [if_neg (by decide), if_neg hpfx]
    rw [gnx_noino hno (by omega)]
    dsimp only
    rw [if_pos (by decide)]

theorem claim_C5_flags_witness :
    scoutfs_xattr_set (fun _ => 0) (fun _ => false)
      (xattrItems 7 0 0 (xattrEncode nmUserA [9])) 7 1 nmUserA (some [1]) 1 =
      ⟨.error .eexist, xattrItems 7 0 0 (xattrEncode nmUserA [9]), 1, false⟩ ∧
    scoutfs_xattr_set (fun _ => 0) (fun _ => false) [] 7 0 nmUserA
      (some [1]) 2 = ⟨.error .enodata, [], 0, false⟩ :=
  ⟨(claim_C5_flags (fun _ => 0) (fun _ => false) 7 1 0 1 nmUserA [1] [9] []
      (xattrItems 7 0 0 (xattrEncode nmUserA [9])) (by decide) (by decide)
      (by decide)).1 (by decide) (by decide) (by decide) (by decide) (by decide),
   (claim_C5_flags (fun _ => 0) (fun _ => false) 7 0 0 1 nmUserA [1] [9] []
      (xattrItems 7 0 0 (xattrEncode nmUserA [9])) (by decide) (by decide)
      (by decide)).2 (by decide)⟩

/-- C7: for a stored xattr with value `V`, `get` with a positive buffer
smaller than `len(V)` fails with `ERANGE` and writes no value bytes, and
`get` with size 0 returns `len(V)` without copying anything. -/
theorem claim_C7_buffer (hashF : List Nat → Nat) (ino id n s : Nat)
    (name val : List Nat) (st : Store)
    (hsing : singleXattrStore st ino (hashF name) id n (xattrEncode name val))
    (hn : n = (chunksOf (xattrEncode name val)).length)
    (hhsh : hashF name < 2 ^ 32) (hid : id < 2 ^ 64 - 1)
    (hpfx : ¬ unknown_pfx name) (hnl : name.length ≤ MAXNAME)
    (hvl : val.length ≤ MAXVAL) :
    (0 < s → s < val.length →
      scoutfs_getxattr hashF st ino name s = .error .erange) ∧
    scoutfs_getxattr hashF st ino name 0 = .ok (val.length, []) := by
  constructor
  · intro hs0 hs
    exact getxattr_single_erange hsing hn hhsh hid hpfx hnl hvl hs0 hs
  · exact getxattr_single_sizeq hsing hn hhsh hid hpfx hnl hvl

theorem claim_C7_buffer_witness :
    (0 < 2 → 2 < ([5, 6, 7] : List Nat).length →
      scoutfs_getxattr (fun _ => 0) (xattrItems 7 0 0 (xattrEncode nmUserA
        [5, 6, 7])) 7 nmUserA 2 = .error .erange) ∧
    scoutfs_getxattr (fun _ => 0) (xattrItems 7 0 0 (xattrEncode nmUserA
      [5, 6, 7])) 7 nmUserA 0 = .ok (([5, 6, 7] : List Nat).length, []) :=
  claim_C7_buffer (fun _ => 0) 7 0 1 2 nmUserA [5, 6, 7]
    (xattrItems 7 0 0 (xattrEncode nmUserA [5, 6, 7])) (by decide) (by decide)
    (by decide) (by decide) (by decide) (by decide) (by decide)

/-- C3 counterexample: enumeration does not detect a missing continuation
part.  With only part 0 of a 2-part xattr in the store, `list` succeeds
and returns the name — it never reads parts past part 0 — so "every
lookup or enumeration … fails with a Corruption error" is false. -/
theorem claim_C3_counterexample :
    scoutfs_listxattr (fun _ => 0)
      [(xkey 7 0 0 0, (xattrEncode nmUserA (List.replicate 400 9)).take 300)]
      7 300 = .ok (7, nmUserA ++ [0]) ∧
    scoutfs_listxattr (fun _ => 0)
      [(xkey 7 0 0 0, (xattrEncode nmUserA (List.replicate 400 9)).take 300)]
      7 300 ≠ .error .eio := by
  refine ⟨rfl, ?_⟩
  intro hc
  rw [show scoutfs_listxattr (fun _ => 0)
      [(xkey 7 0 0 0, (xattrEncode nmUserA (List.replicate 400 9)).take 300)]
      7 300 = .ok (7, nmUserA ++ [0]) from rfl] at hc
  exact Except.noConfusion hc

/-- C3 amended: for by-name lookup (`get`), a missing continuation part
with part 0 present yields Corruption (`EIO`), never NotFound, while
absence of the instance entirely (no part 0 to read) yields NotFound
(`ENODATA`).  Enumeration reads only part 0 and does not detect the
corruption (see the counterexample). -/
theorem claim_C3_missing_part (hashF : List Nat → Nat) (ino id n m s : Nat)
    (name val : List Nat) (st stNone : Store)
    (hsing : singleXattrStore st ino (hashF name) id m (xattrEncode name val))
    (hn : n = (chunksOf (xattrEncode name val)).length)
    (hhsh : hashF name < 2 ^ 32) (hid : id < 2 ^ 64 - 1)
    (hpfx : ¬ unknown_pfx name) (hnl : name.length ≤ MAXNAME)
    (hvl : val.length ≤ MAXVAL) (hm1 : 1 ≤ m) (hmn : m < n)
    (hs : val.length ≤ s) (hno : noInoItems stNone ino) :
    scoutfs_getxattr hashF st ino name s = .error .eio ∧
    scoutfs_getxattr hashF stNone ino name s = .error .enodata :=
  ⟨getxattr_single_eio hsing hn hhsh hid hpfx hnl hvl hm1 hmn hs,
   getxattr_noino hno hpfx hnl⟩

theorem claim_C3_missing_part_witness :
    scoutfs_getxattr (fun _ => 0)
      [(xkey 7 0 0 0, chunkAt (xattrEncode nmUserA (List.replicate 400 9)) 0)]
      7 nmUserA 400 = .error .eio ∧
    scoutfs_getxattr (fun _ => 0) [] 7 nmUserA 400 = .error .enodata :=
  claim_C3_missing_part (fun _ => 0) 7 0 2 1 400 nmUserA
    (List.replicate 400 9)
    [(xkey 7 0 0 0, chunkAt (xattrEncode nmUserA (List.replicate 400 9)) 0)]
    [] (by decide) (by decide) (by decide) (by decide) (by decide) (by decide)
    (by decide) (by decide) (by decide) (by decide) (by decide)

/-- C2: if, after the old instance's items were staged-deleted, the
creation of new part `j` fails, then the already-written new parts are
deleted, the staged old items are restored, and the error is surfaced
from inside the transaction: the final store is identical to the starting
one, no new-instance item remains, and a subsequent `get(name)` returns
the original value. -/
theorem claim_C2_rollback (hashF : List Nat → Nat) (ino nid oldId j s : Nat)
    (name oldV newV : List Nat)
    (hhsh : hashF name < 2 ^ 32) (hOldId : oldId < 2 ^ 64 - 1)
    (hne : nid ≠ oldId)
    (hpfx : ¬ unknown_pfx name) (hnl : name.length ≤ MAXNAME)
    (hOld : oldV.length ≤ MAXVAL) (hNew : newV.length ≤ MAXVAL)
    (hj : j < (chunksOf (xattrEncode name newV)).length)
    (hs : oldV.length ≤ s) :
    (scoutfs_xattr_set hashF (fun k => k == xkey ino (hashF name) nid j)
        (xattrItems ino (hashF name) oldId (xattrEncode name oldV)) ino nid
        name (some newV) 0).ret = .error .eio ∧
    (scoutfs_xattr_set hashF (fun k => k == xkey ino (hashF name) nid j)
        (xattrItems ino (hashF name) oldId (xattrEncode name oldV)) ino nid
        name (some newV) 0).store =
      xattrItems ino (hashF name) oldId (xattrEncode name oldV) ∧
    (scoutfs_xattr_set hashF (fun k => k == xkey ino (hashF name) nid j)
        (xattrItems ino (hashF name) oldId (xattrEncode name oldV)) ino nid
        name (some newV) 0).transUsed = true ∧
    (∀ p, findItem (scoutfs_xattr_set hashF
        (fun k => k == xkey ino (hashF name) nid j)
        (xattrItems ino (hashF name) oldId (xattrEncode name oldV)) ino nid
        name (some newV) 0).store (xkey ino (hashF name) nid p) = none) ∧
    scoutfs_getxattr hashF (scoutfs_xattr_set hashF
        (fun k => k == xkey ino (hashF name) nid j)
        (xattrItems ino (hashF name) oldId (xattrEncode name oldV)) ino nid
        name (some newV) 0).store ino name s = .ok (oldV.length, oldV) := by
  have hnl0 := nl_pos_of_pfx hpfx
  have hsing := xattrItems_single ino (hashF name) oldId (xattrEncode name oldV)
  have hLold : (xattrEncode name oldV).length = 3 + name.length + oldV.length :=
    xattrEncode_length name oldV
  have hnOld1 : 1 ≤ (chunksOf (xattrEncode name oldV)).length := by
    rw [chunksOf_length]
    simp only [PARTSZ]
    omega
  have hrun : scoutfs_xattr_set hashF (fun k => k == xkey ino (hashF name) nid j)
      (xattrItems ino (hashF name) oldId (xattrEncode name oldV)) ino nid
      name (some newV) 0 =
      ⟨.error .eio, xattrItems ino (hashF name) oldId (xattrEncode name oldV),
        nid + 1, true⟩ := by
    rw [scoutfs_xattr_set, if_neg (show ¬ name.length > MAXNAME by omega)]
    rw [if_neg (fun hc => absurd hc.2 (show ¬ ((some newV).getD []).length > MAXVAL
      from by simp only [Option.getD_some]; omega))]
    rw [if_neg (by decide), if_neg hpfx]
    obtain ⟨pk, hgnx⟩ := gnx_byname_complete (3 + name.length) hsing rfl hhsh
      hOldId hnl0 hnl hOld (by omega)
    rw [hgnx]
    dsimp only
    rw [if_neg (by decide)]
    have hbnl : bufNameLen ((xattrEncode name oldV).take (3 + name.length)) =
        name.length := bufNameLen_take (by omega)
    have hbvl : bufValLen ((xattrEncode name oldV).take (3 + name.length)) =
        oldV.length := bufValLen_take (by omega) hOld
    rw [hbnl, hbvl]
    have hfp : xattr_nr_parts_len name.length oldV.length % 256 =
        (chunksOf (xattrEncode name oldV)).length := by
      rw [Nat.mod_eq_of_lt (by
          have := nr_parts_le_220 hnl hOld
          omega),
        chunksOf_length_eq_nr_parts]
    rw [hfp]
    simp only [xkey_hsh, xkey_idf]
    rw [xattrSetCommit, if_pos (by omega)]
    rw [delete_xattr_items_all ino (hashF name) oldId (xattrEncode name oldV)]
    dsimp only
    rw [if_pos (show (some newV).isSome = true from rfl)]
    simp only [Option.getD_some]
    rw [create_xattr_items_fault ino (hashF name) nid j (xattrEncode name newV) hj]
    dsimp only
    rw [itemRestore, List.append_nil,
      if_pos (show (some newV).isSome = true from rfl)]
  rw [hrun]
  refine ⟨rfl, rfl, rfl, ?_, ?_⟩
  · intro p
    rw [findItem_eq_none_iff]
    intro e he
    rcases mem_partsFrom he with ⟨q, _, _, hkq⟩
    rw [hkq]
    simp only [xkey, ne_eq, Key.mk.injEq]
    omega
  · exact getxattr_single_ok hsing rfl hhsh hOldId hpfx hnl hOld hs

theorem claim_C2_rollback_witness :
    (0 : Nat) < 2 ^ 32 ∧
    (scoutfs_xattr_set (fun _ => 0) (fun k => k == xkey 7 0 1 0)
        (xattrItems 7 0 0 (xattrEncode nmUserA [1, 2])) 7 1 nmUserA
        (some [5, 6, 7]) 0).ret = .error .eio ∧
    (scoutfs_xattr_set (fun _ => 0) (fun k => k == xkey 7 0 1 0)
        (xattrItems 7 0 0 (xattrEncode nmUserA [1, 2])) 7 1 nmUserA
        (some [5, 6, 7]) 0).store =
      xattrItems 7 0 0 (xattrEncode nmUserA [1, 2]) ∧
    scoutfs_getxattr (fun _ => 0) (scoutfs_xattr_set (fun _ => 0)
        (fun k => k == xkey 7 0 1 0)
        (xattrItems 7 0 0 (xattrEncode nmUserA [1, 2])) 7 1 nmUserA
        (some [5, 6, 7]) 0).store 7 nmUserA 2 = .ok (2, [1, 2]) := by
  have h := claim_C2_rollback (fun _ => 0) 7 1 0 0 2 nmUserA [1, 2] [5, 6, 7]
    (by decide) (by decide) (by decide) (by decide) (by decide) (by decide)
    (by decide) (by decide) (by decide)
  exact ⟨by decide, h.1, h.2.1, h.2.2.2.2⟩

/-! ## `scoutfs_xattr_drop` -/

theorem erase_key_filter_not (lo hi : Key) (st : Store) (k : Key)
    (hk : keyLe lo k ∧ keyLe k hi) :
    (st.eraseP (fun e => e.1 == k)).filter
        (fun e => ! decide (keyLe lo e.1 ∧ keyLe e.1 hi)) =
      st.filter (fun e => ! decide (keyLe lo e.1 ∧ keyLe e.1 hi)) := by
  induction st with
  | nil => rfl
  | cons x rest ih =>
    by_cases hx : x.1 = k
    · rw [List.eraseP_cons_of_pos (by simp [hx])]
      rw [List.filter_cons_of_neg (by simp [hx]; exact hk)]
    · rw [List.eraseP_cons_of_neg (by simp [hx])]
      rw [List.filter_cons, List.filter_cons, ih]

theorem erase_key_filter_len (lo hi : Key) (st : Store) (k : Key)
    (hk : keyLe lo k ∧ keyLe k hi) (hp : (findItem st k).isSome) :
    ((st.eraseP (fun e => e.1 == k)).filter
        (fun e => decide (keyLe lo e.1 ∧ keyLe e.1 hi))).length + 1 =
      (st.filter (fun e => decide (keyLe lo e.1 ∧ keyLe e.1 hi))).length := by
  induction st with
  | nil => simp [findItem_nil] at hp
  | cons x rest ih =>
    by_cases hx : x.1 = k
    · rw [List.eraseP_cons_of_pos (by simp [hx])]
      rw [List.filter_cons_of_pos (by simp [hx]; exact hk)]
      simp
    · rw [List.eraseP_cons_of_neg (by simp [hx])]
      rw [findItem_cons, if_neg hx] at hp
      by_cases hin : keyLe lo x.1 ∧ keyLe x.1 hi
      · rw [List.filter_cons_of_pos (by simpa using hin),
          List.filter_cons_of_pos (by simpa using hin)]
        have := ih hp
        simp only [List.length_cons]
        omega
      · rw [List.filter_cons_of_neg (by simpa using hin),
          List.filter_cons_of_neg (by simpa using hin)]
        exact ih hp

theorem dropLoop_spec (lo hi : Key) :
    ∀ fuel st items holding batches,
      (st.filter (fun e => decide (keyLe lo e.1 ∧ keyLe e.1 hi))).length < fuel →
      1 ≤ items → items ≤ 16 → (holding = false → items = 16) →
      (holding = true → items ≤ 15) →
      (dropLoop lo hi fuel st items holding batches).1 =
        st.filter (fun e => ! decide (keyLe lo e.1 ∧ keyLe e.1 hi)) ∧
      ∀ b ∈ (dropLoop lo hi fuel st items holding batches).2,
        b ∈ batches ∨ (1 ≤ b ∧ b ≤ 16) := by
  intro fuel
  induction fuel with
  | zero =>
    intro st items holding batches hcount _ _ _ _
    omega
  | succ fuel ih =>
    intro st items holding batches hcount h1 h16 hnf hht
    rw [dropLoop]
    rcases hnx : itemNext st lo hi with _ | kv
    · constructor
      · have hnone : ∀ e ∈ st, ¬(keyLe lo e.1 ∧ keyLe e.1 hi) :=
          itemNext_none_iff.mp hnx
        dsimp only
        rw [List.filter_eq_self.mpr (fun e he => by
          simp only [Bool.not_eq_true']
          exact decide_eq_false (hnone e he))]
      · intro b hb
        dsimp only at hb
        rcases holding with _ | _
        · exact Or.inl hb
        · simp only [if_pos rfl] at hb
          rcases List.mem_append.mp hb with hb | hb
          · exact Or.inl hb
          · right
            simp only [List.mem_singleton] at hb
            subst hb
            have := hht rfl
            omega
    · obtain ⟨k, v⟩ := kv
      dsimp only
      have hmem := itemNext_mem hnx
      have hrange : keyLe lo k ∧ keyLe k hi := hmem.2
      have hfind : (findItem st k).isSome := by
        rw [itemNext_find hnx]
        rfl
      have hlen := erase_key_filter_len lo hi st k hrange hfind
      have hflt := erase_key_filter_not lo hi st k hrange
      by_cases hz : items - 1 = 0
      · rw [if_pos hz]
        have hrec := ih (st.eraseP (fun e => e.1 == k)) 16 false
          (batches ++ [16]) (by omega) (by omega) (by omega)
          (fun _ => rfl) (fun hc => by cases hc)
        refine ⟨by rw [hrec.1, hflt], ?_⟩
        intro b hb
        rcases hrec.2 b hb with hb2 | hb2
        · rcases List.mem_append.mp hb2 with hb3 | hb3
          · exact Or.inl hb3
          · right
            simp only [List.mem_singleton] at hb3
            subst hb3
            omega
        · exact Or.inr hb2
      · rw [if_neg hz]
        have hrec := ih (st.eraseP (fun e => e.1 == k)) (items - 1) true
          batches (by omega) (by omega) (by omega)
          (fun hc => by cases hc) (fun _ => by omega)
        exact ⟨by rw [hrec.1, hflt], hrec.2⟩

/-- `scoutfs_xattr_drop` removes exactly the items in the inode's key
range and batches the deletions into transactions of 1 to 16 items. -/
theorem xattr_drop_spec (st : Store) (ino : Nat) :
    (scoutfs_xattr_drop st ino).1 =
      st.filter (fun e => ! decide (keyLe (xkey ino 0 0 0) e.1 ∧
        keyLe e.1 (xkey ino U32MAX U64MAX 0))) ∧
    ∀ b ∈ (scoutfs_xattr_drop st ino).2, 1 ≤ b ∧ b ≤ 16 := by
  have h := dropLoop_spec (xkey ino 0 0 0) (xkey ino U32MAX U64MAX 0)
    (st.length + 1) st 16 false []
    (by
      have := List.length_filter_le
        (fun e => decide (keyLe (xkey ino 0 0 0) e.1 ∧
          keyLe e.1 (xkey ino U32MAX U64MAX 0))) st
      omega)
    (by omega) (by omega) (fun _ => rfl) (fun hc => by cases hc)
  refine ⟨h.1, ?_⟩
  intro b hb
  rcases h.2 b hb with hb2 | hb2
  · cases hb2
  · exact hb2

/-- A scan over a store with no item in the inode's xattr key range fails
with `ENOENT`, whatever the starting position. -/
theorem gnx_range_empty {st : Store} {ino bytes nameHash id : Nat}
    {name : List Nat} {hashF : List Nat → Nat}
    (hor : ∀ e ∈ st, ¬(keyLe (xkey ino 0 0 0) e.1 ∧
      keyLe e.1 (xkey ino U32MAX U64MAX 0)))
    (hbytes : ¬ (0 < name.length ∧ bytes < 3 + name.length)) :
    get_next_xattr hashF st ino bytes name nameHash id = .error .enoent := by
  rw [get_next_xattr, if_neg hbytes]
  obtain ⟨flen, hflen⟩ : ∃ flen, st.length + 1 = flen + 1 := ⟨st.length, rfl⟩
  rw [hflen]
  have hnone : itemNext st
      (xkey ino (if 0 < name.length then hashF name else nameHash) id 0)
      (xkey ino U32MAX U64MAX 0) = none := by
    rw [itemNext_none_iff]
    intro e he hc
    refine hor e he ⟨keyLe_trans ?_ hc.1, hc.2⟩
    rw [keyLe_xkey_iff]
    omega
  rw [gnxLoop, hnone]
  dsimp only
  rw [if_neg (by omega)]

/-- C9: after `drop_all`, `get` returns NotFound for every (valid) name
and `list` returns an empty result, and the deletions were batched into
held transactions of at most 16 items each. -/
theorem claim_C9_drop (hashF : List Nat → Nat) (st : Store)
    (ino s size : Nat) (name : List Nat)
    (hpfx : ¬ unknown_pfx name) (hnl : name.length ≤ MAXNAME) :
    (∀ b ∈ (scoutfs_xattr_drop st ino).2, 1 ≤ b ∧ b ≤ 16) ∧
    scoutfs_getxattr hashF (scoutfs_xattr_drop st ino).1 ino name s =
      .error .enodata ∧
    scoutfs_listxattr hashF (scoutfs_xattr_drop st ino).1 ino size =
      .ok (0, []) := by
  obtain ⟨hst, hb⟩ := xattr_drop_spec st ino
  have hor : ∀ e ∈ (scoutfs_xattr_drop st ino).1,
      ¬(keyLe (xkey ino 0 0 0) e.1 ∧ keyLe e.1 (xkey ino U32MAX U64MAX 0)) := by
    intro e he
    rw [hst] at he
    have := List.of_mem_filter he
    simp only [Bool.not_eq_true'] at this
    exact of_decide_eq_false this
  refine ⟨hb, ?_, ?_⟩
  · rw [scoutfs_getxattr, if_neg hpfx,
      if_neg (show ¬ name.length > MAXNAME by omega)]
    rw [gnx_range_empty hor (by omega)]
  · rw [scoutfs_listxattr]
    obtain ⟨flen, hflen⟩ : ∃ flen, (scoutfs_xattr_drop st ino).1.length + 1 =
        flen + 1 := ⟨(scoutfs_xattr_drop st ino).1.length, rfl⟩
    rw [hflen, listLoop, gnx_range_empty hor (by simp)]

theorem claim_C9_drop_witness :
    (∀ b ∈ (scoutfs_xattr_drop [(xkey 7 0 0 0, [1]), (xkey 7 5 2 0, [2]),
      (xkey 8 0 0 0, [3])] 7).2, 1 ≤ b ∧ b ≤ 16) ∧
    scoutfs_getxattr (fun _ => 0) (scoutfs_xattr_drop [(xkey 7 0 0 0, [1]),
      (xkey 7 5 2 0, [2]), (xkey 8 0 0 0, [3])] 7).1 7 nmUserA 4 =
      .error .enodata ∧
    scoutfs_listxattr (fun _ => 0) (scoutfs_xattr_drop [(xkey 7 0 0 0, [1]),
      (xkey 7 5 2 0, [2]), (xkey 8 0 0 0, [3])] 7).1 7 10 = .ok (0, []) :=
  claim_C9_drop (fun _ => 0)
    [(xkey 7 0 0 0, [1]), (xkey 7 5 2 0, [2]), (xkey 8 0 0 0, [3])] 7 4 10
    nmUserA (by decide) (by decide)

/-! ## Enumeration over multi-instance stores -/

theorem instKey_hsh (hashF : List Nat → Nat) (ino : Nat) (i : Inst) :
    (instKey hashF ino i).hsh = hashF i.name := rfl

theorem instKey_idf (hashF : List Nat → Nat) (ino : Nat) (i : Inst) :
    (instKey hashF ino i).id = i.id := rfl

theorem mem_instStore {hashF : List Nat → Nat} {ino : Nat} {l : List Inst}
    {e : Key × List Nat} :
    e ∈ instStore hashF ino l ↔
      ∃ i ∈ l, e ∈ xattrItems ino (hashF i.name) i.id (instEnc i) := by
  rw [instStore, List.mem_flatten]
  constructor
  · rintro ⟨bl, hbl, he⟩
    rcases List.mem_map.mp hbl with ⟨i, hi, rfl⟩
    exact ⟨i, hi, he⟩
  · rintro ⟨i, hi, he⟩
    exact ⟨_, List.mem_map.mpr ⟨i, hi, rfl⟩, he⟩

theorem findItem_partsFrom_ne {ino hsh id q ino2 hsh2 id2 p : Nat}
    {cs : List (List Nat)}
    (hne : ¬ (ino = ino2 ∧ hsh = hsh2 ∧ id = id2)) :
    findItem (partsFrom ino hsh id q cs) (xkey ino2 hsh2 id2 p) = none := by
  rw [findItem_eq_none_iff]
  intro e he
  rcases mem_partsFrom he with ⟨r, _, _, hkr⟩
  rw [hkr]
  simp only [xkey, ne_eq, Key.mk.injEq]
  intro h1
  exact hne ⟨h1.1, h1.2.1, h1.2.2.1⟩

/-- Looking up a part key of instance `i` in a store of instances with
pairwise-distinct `(hash, id)` pairs finds `i`'s part. -/
theorem findItem_instStore {hashF : List Nat → Nat} {ino : Nat}
    {l : List Inst}
    (W3 : l.Pairwise (fun i j => (hashF i.name, i.id) ≠ (hashF j.name, j.id)))
    {i : Inst} (hi : i ∈ l) {p : Nat}
    (hp : p < (chunksOf (instEnc i)).length) :
    findItem (instStore hashF ino l) (xkey ino (hashF i.name) i.id p) =
      some (chunkAt (instEnc i) p) := by
  induction l with
  | nil => cases hi
  | cons j rest ih =>
    have hstep : instStore hashF ino (j :: rest) =
        xattrItems ino (hashF j.name) j.id (instEnc j) ++
          instStore hashF ino rest := by
      rw [instStore, instStore, List.map_cons, List.flatten_cons]
    rw [hstep, findItem_append]
    rcases List.mem_cons.mp hi with hij | hij
    · subst hij
      rw [xattrItems, findItem_partsFrom, if_pos (by omega)]
      rw [Nat.sub_zero, chunksOf_getD (instEnc i) p hp]
    · have hne : (hashF j.name, j.id) ≠ (hashF i.name, i.id) :=
        List.rel_of_pairwise_cons W3 hij
      rw [xattrItems, findItem_partsFrom_ne (by
        rintro ⟨_, h2, h3⟩
        exact hne (by rw [h2, h3]))]
      exact ih (List.Pairwise.sublist (List.sublist_cons_self _ _) W3) hij

/-- A nonempty list of instances has one with the smallest part-0 key. -/
theorem exists_min_inst (hashF : List Nat → Nat) (ino : Nat) :
    ∀ L : List Inst, L ≠ [] →
      ∃ m ∈ L, ∀ i ∈ L, keyLe (instKey hashF ino m) (instKey hashF ino i) := by
  intro L
  induction L with
  | nil => intro h; exact absurd rfl h
  | cons j rest ih =>
    intro _
    rcases rest with _ | ⟨j2, rest2⟩
    · exact ⟨j, List.mem_cons_self _ _, by
        intro i hi
        rcases List.mem_cons.mp hi with rfl | hi
        · exact keyLe_refl _
        · cases hi⟩
    · obtain ⟨m, hm, hmin⟩ := ih (by simp)
      rcases keyLe_total (instKey hashF ino j) (instKey hashF ino m) with h | h
      · refine ⟨j, List.mem_cons_self _ _, ?_⟩
        intro i hi
        rcases List.mem_cons.mp hi with rfl | hi
        · exact keyLe_refl _
        · exact keyLe_trans h (hmin i hi)
      · refine ⟨m, List.mem_cons_of_mem _ hm, ?_⟩
        intro i hi
        rcases List.mem_cons.mp hi with rfl | hi
        · exact h
        · exact hmin i hi

theorem itemNext_instStore_none {hashF : List Nat → Nat} {ino : Nat}
    {l : List Inst} {ch ci : Nat}
    (hempty : ∀ i ∈ l, ¬ keyLe (xkey ino ch ci 0) (instKey hashF ino i)) :
    itemNext (instStore hashF ino l) (xkey ino ch ci 0)
      (xkey ino U32MAX U64MAX 0) = none := by
  rw [itemNext_none_iff]
  intro e he hc
  rcases mem_instStore.mp he with ⟨i, hi, hei⟩
  rcases mem_partsFrom hei with ⟨p, _, _, hkp⟩
  apply hempty i hi
  rw [hkp, keyLe_xkey_iff] at hc
  simp only [instKey]
  rw [keyLe_iff_not_lt, keyLt_xkey_iff]
  have h1 := hc.1
  omega

theorem itemNext_instStore_min {hashF : List Nat → Nat} {ino : Nat}
    {l : List Inst} {ch ci : Nat} {m : Inst}
    (W3 : l.Pairwise (fun i j => (hashF i.name, i.id) ≠ (hashF j.name, j.id)))
    (hm : m ∈ l) (hmS : keyLe (xkey ino ch ci 0) (instKey hashF ino m))
    (hmin : ∀ i ∈ l, keyLe (xkey ino ch ci 0) (instKey hashF ino i) →
      keyLe (instKey hashF ino m) (instKey hashF ino i))
    (hhsh : hashF m.name < 2 ^ 32) (hid : m.id < 2 ^ 64 - 1) :
    itemNext (instStore hashF ino l) (xkey ino ch ci 0)
      (xkey ino U32MAX U64MAX 0) =
      some (instKey hashF ino m, chunkAt (instEnc m) 0) := by
  have hnp : 0 < (chunksOf (instEnc m)).length := by
    rw [chunksOf_length, instEnc, xattrEncode_length]
    simp only [PARTSZ]
    omega
  apply itemNext_eq_some (findItem_instStore W3 hm hnp)
  · exact hmS
  · exact keyLe_last hhsh hid
  · intro e he hlo _
    rcases mem_instStore.mp he with ⟨i, hi, hei⟩
    rcases mem_partsFrom hei with ⟨p, _, _, hkp⟩
    have hiS : keyLe (xkey ino ch ci 0) (instKey hashF ino i) := by
      rw [hkp, keyLe_xkey_iff] at hlo
      simp only [instKey]
      rw [keyLe_iff_not_lt, keyLt_xkey_iff]
      omega
    have hmi := hmin i hi hiS
    rw [hkp]
    simp only [instKey, keyLe_xkey_iff] at hmi
    rw [keyLe_iff_not_lt, keyLt_xkey_iff]
    omega

/-- One enumeration step of `get_next_xattr` without a name over a
multi-instance store: the minimal instance at or past the cursor is
returned with the first `3 + MAXNAME` bytes of its serialization. -/
theorem gnx_enum_step {hashF : List Nat → Nat} {ino : Nat}
    {l : List Inst} {ch ci : Nat} {m : Inst}
    (W3 : l.Pairwise (fun i j => (hashF i.name, i.id) ≠ (hashF j.name, j.id)))
    (hm : m ∈ l) (hmS : keyLe (xkey ino ch ci 0) (instKey hashF ino m))
    (hmin : ∀ i ∈ l, keyLe (xkey ino ch ci 0) (instKey hashF ino i) →
      keyLe (instKey hashF ino m) (instKey hashF ino i))
    (hhsh : hashF m.name < 2 ^ 32) (hid : m.id < 2 ^ 64 - 1)
    (hnl : m.name.length ≤ MAXNAME) (hvl : m.val.length ≤ MAXVAL) :
    get_next_xattr hashF (instStore hashF ino l) ino (3 + MAXNAME) [] ch ci =
      .ok (instKey hashF ino m, (instEnc m).take (3 + MAXNAME)) := by
  rw [get_next_xattr, if_neg (by simp)]
  obtain ⟨flen, hflen⟩ : ∃ flen, (instStore hashF ino l).length + 1 = flen + 1 :=
    ⟨(instStore hashF ino l).length, rfl⟩
  rw [hflen]
  rw [gnxLoop]
  rw [show (if 0 < ([] : List Nat).length then hashF [] else ch) = ch from rfl]
  rw [itemNext_instStore_min W3 hm hmS hmin hhsh hid]
  dsimp only
  rw [if_neg (fun hc => hc rfl)]
  have hL : (instEnc m).length = 3 + m.name.length + m.val.length := by
    rw [instEnc, xattrEncode_length]
  have hacc : (([] : List Nat) ++ (chunkAt (instEnc m) 0).take
      (3 + MAXNAME - ([] : List Nat).length)) = (instEnc m).take (3 + MAXNAME) := by
    rw [List.nil_append, chunkAt, Nat.zero_mul, List.drop_zero, List.take_take]
    norm_num [PARTSZ, MAXNAME]
  rw [hacc]
  have hlen : ((instEnc m).take (3 + MAXNAME)).length =
      min (3 + MAXNAME) (instEnc m).length := List.length_take ..
  have hbnl : bufNameLen ((instEnc m).take (3 + MAXNAME)) = m.name.length := by
    rw [instEnc]
    exact bufNameLen_take (by simp only [MAXNAME]; omega)
  have hbvl : bufValLen ((instEnc m).take (3 + MAXNAME)) = m.val.length := by
    rw [instEnc]
    exact bufValLen_take (by simp only [MAXNAME]; omega) hvl
  have hhdr : ¬ hdrBad ([] : List Nat).length ((instEnc m).take (3 + MAXNAME)) := by
    rintro (h | h | h | h)
    · rw [hlen] at h
      simp only [MAXNAME] at *
      omega
    · rw [hbnl] at h
      rw [hlen] at h
      simp only [List.length_nil] at h
      simp only [MAXNAME] at *
      omega
    · rw [hbnl] at h
      exact absurd h (by omega)
    · rw [hbvl] at h
      exact absurd h (by omega)
  rw [if_neg (fun hc => hhdr hc.2)]
  rw [if_neg (fun hc => by simp at hc)]
  rw [if_pos (Or.inr rfl)]

theorem gnx_enum_none {hashF : List Nat → Nat} {ino : Nat} {l : List Inst}
    {ch ci : Nat}
    (hempty : ∀ i ∈ l, ¬ keyLe (xkey ino ch ci 0) (instKey hashF ino i)) :
    get_next_xattr hashF (instStore hashF ino l) ino (3 + MAXNAME) [] ch ci =
      .error .enoent := by
  rw [get_next_xattr, if_neg (by simp)]
  obtain ⟨flen, hflen⟩ : ∃ flen, (instStore hashF ino l).length + 1 = flen + 1 :=
    ⟨(instStore hashF ino l).length, rfl⟩
  rw [hflen, gnxLoop]
  rw [show (if 0 < ([] : List Nat).length then hashF [] else ch) = ch from rfl]
  rw [itemNext_instStore_none hempty]
  dsimp only
  rw [if_neg (by omega)]

/-- The enumeration loop of `scoutfs_listxattr` over a well-formed
multi-instance store visits the instances at or past the cursor exactly
once each, in ascending `(name_hash, id)` order, appending each name and a
NUL. -/
theorem listLoop_spec (hashF : List Nat → Nat) (ino : Nat) (l : List Inst)
    (size : Nat)
    (W1 : wfInsts l) (W2 : ∀ s2, hashF s2 < 2 ^ 32)
    (W3 : l.Pairwise (fun i j => (hashF i.name, i.id) ≠ (hashF j.name, j.id)))
    (hsz : size ≠ 0) :
    ∀ N ch ci fuel total buf,
      (l.filter (fun i => decide (keyLe (xkey ino ch ci 0)
        (instKey hashF ino i)))).length ≤ N →
      N < fuel →
      total + ((l.filter (fun i => decide (keyLe (xkey ino ch ci 0)
        (instKey hashF ino i)))).map (fun i => i.name.length + 1)).sum ≤ size →
      ∃ l2, List.Perm l2 (l.filter (fun i => decide (keyLe (xkey ino ch ci 0)
          (instKey hashF ino i)))) ∧
        listLoop hashF (instStore hashF ino l) ino size fuel ch ci total buf =
          .ok (total + ((l.filter (fun i => decide (keyLe (xkey ino ch ci 0)
              (instKey hashF ino i)))).map (fun i => i.name.length + 1)).sum,
            buf ++ (l2.map (fun i => i.name ++ [0])).flatten) := by
  have hsymm : Symmetric
      (fun i j : Inst => (hashF i.name, i.id) ≠ (hashF j.name, j.id)) := by
    intro a b h heq
    exact h heq.symm
  have hpairs : ∀ i ∈ l, ∀ j ∈ l, i ≠ j →
      (hashF i.name, i.id) ≠ (hashF j.name, j.id) :=
    fun i hi j hj hne => List.Pairwise.forall hsymm W3 hi hj hne
  intro N
  induction N with
  | zero =>
    intro ch ci fuel total buf hlen hfuel hsum
    have hSe : l.filter (fun i => decide (keyLe (xkey ino ch ci 0)
        (instKey hashF ino i))) = [] := by
      rcases hS : l.filter (fun i => decide (keyLe (xkey ino ch ci 0)
        (instKey hashF ino i))) with _ | _
      · rfl
      · rw [hS] at hlen
        simp at hlen
    have hempty : ∀ i ∈ l, ¬ keyLe (xkey ino ch ci 0) (instKey hashF ino i) := by
      intro i hi hc
      have : i ∈ l.filter (fun i => decide (keyLe (xkey ino ch ci 0)
          (instKey hashF ino i))) := List.mem_filter.mpr ⟨hi, decide_eq_true hc⟩
      rw [hSe] at this
      cases this
    rcases fuel with _ | fuel
    · omega
    · rw [listLoop, gnx_enum_none hempty]
      refine ⟨[], by rw [hSe], ?_⟩
      rw [hSe]
      simp
  | succ N ih =>
    intro ch ci fuel total buf hlen hfuel hsum
    by_cases hSe : l.filter (fun i => decide (keyLe (xkey ino ch ci 0)
        (instKey hashF ino i))) = []
    · have hempty : ∀ i ∈ l, ¬ keyLe (xkey ino ch ci 0) (instKey hashF ino i) := by
        intro i hi hc
        have : i ∈ l.filter (fun i => decide (keyLe (xkey ino ch ci 0)
            (instKey hashF ino i))) := List.mem_filter.mpr ⟨hi, decide_eq_true hc⟩
        rw [hSe] at this
        cases this
      rcases fuel with _ | fuel
      · omega
      · rw [listLoop, gnx_enum_none hempty]
        refine ⟨[], by rw [hSe], ?_⟩
        rw [hSe]
        simp
    · obtain ⟨m, hmS, hminS⟩ := exists_min_inst hashF ino _ hSe
      have hml : m ∈ l := (List.mem_filter.mp hmS).1
      have hmc : keyLe (xkey ino ch ci 0) (instKey hashF ino m) :=
        of_decide_eq_true (List.mem_filter.mp hmS).2
      have hmin' : ∀ i ∈ l, keyLe (xkey ino ch ci 0) (instKey hashF ino i) →
          keyLe (instKey hashF ino m) (instKey hashF ino i) := by
        intro i hi hc
        exact hminS i (List.mem_filter.mpr ⟨hi, decide_eq_true hc⟩)
      obtain ⟨hw1, hw2, hw3⟩ := W1 m hml
      rcases fuel with _ | fuel
      · omega
      · rw [listLoop, gnx_enum_step W3 hml hmc hmin' (W2 m.name) hw3 hw1 hw2]
        dsimp only
        have hbnl : bufNameLen ((instEnc m).take (3 + MAXNAME)) = m.name.length := by
          rw [instEnc]
          exact bufNameLen_take (by simp only [MAXNAME]; omega)
        rw [hbnl, instKey_hsh, instKey_idf]
        have hmlesum : m.name.length + 1 ≤
            ((l.filter (fun i => decide (keyLe (xkey ino ch ci 0)
              (instKey hashF ino i)))).map (fun i => i.name.length + 1)).sum :=
          List.single_le_sum (fun x _ => Nat.zero_le x) _
            (List.mem_map.mpr ⟨m, hmS, rfl⟩)
        rw [if_neg (show ¬ (size ≠ 0 ∧ size < total + m.name.length + 1) by omega)]
        rw [if_pos hsz]
        have hmod : (m.id + 1) % 2 ^ 64 = m.id + 1 :=
          Nat.mod_eq_of_lt (by omega)
        rw [hmod]
        have hname : ((((instEnc m).take (3 + MAXNAME)).drop 3).take
            m.name.length) = m.name := by
          have h3 : 3 + m.name.length ≤ 3 + MAXNAME := by omega
          rw [instEnc]
          exact encode_name_slice h3
        rw [hname]
        -- the new filter is the old one without `m`
        have hnd : l.Nodup :=
          W3.imp (fun {a b} h heq => h (by rw [heq]))
        have hfe : l.filter (fun i => decide (keyLe
            (xkey ino (hashF m.name) (m.id + 1) 0) (instKey hashF ino i))) =
            (l.filter (fun i => decide (keyLe (xkey ino ch ci 0)
              (instKey hashF ino i)))).erase m := by
          rw [(hnd.filter _).erase_eq_filter, List.filter_filter]
          apply List.filter_congr
          intro i hi
          have hiff : keyLe (xkey ino (hashF m.name) (m.id + 1) 0)
              (instKey hashF ino i) ↔
              (keyLe (xkey ino ch ci 0) (instKey hashF ino i) ∧ ¬ i = m) := by
            constructor
            · intro h2
              constructor
              · refine keyLe_trans ?_ h2
                simp only [instKey, keyLe_xkey_iff] at hmc
                rw [keyLe_iff_not_lt, keyLt_xkey_iff]
                omega
              · intro heq
                subst heq
                simp only [instKey, keyLe_xkey_iff] at h2
                omega
            · rintro ⟨hP, hne⟩
              have hle := hmin' i hi hP
              have hkne : (hashF i.name, i.id) ≠ (hashF m.name, m.id) :=
                hpairs i hi m hml hne
              have hkne2 : ¬ (hashF i.name = hashF m.name ∧ i.id = m.id) := by
                intro hc
                exact hkne (by rw [hc.1, hc.2])
              simp only [instKey, keyLe_xkey_iff] at hle
              simp only [instKey]
              rw [keyLe_iff_not_lt, keyLt_xkey_iff]
              omega
          rw [Bool.eq_iff_iff]
          simp only [Bool.and_eq_true, decide_eq_true_eq, bne_iff_ne]
          constructor
          · intro h2
            exact ⟨(hiff.mp h2).2, (hiff.mp h2).1⟩
          · rintro ⟨h2a, h2b⟩
            exact hiff.mpr ⟨h2b, h2a⟩
        have hlenS : ((l.filter (fun i => decide (keyLe (xkey ino ch ci 0)
            (instKey hashF ino i)))).erase m).length ≤ N := by
          rw [List.length_erase_of_mem hmS]
          omega
        have hpermS : List.Perm (l.filter (fun i => decide (keyLe
            (xkey ino ch ci 0) (instKey hashF ino i))))
            (m :: (l.filter (fun i => decide (keyLe (xkey ino ch ci 0)
              (instKey hashF ino i)))).erase m) := List.perm_cons_erase hmS
        have hsums : ((l.filter (fun i => decide (keyLe (xkey ino ch ci 0)
            (instKey hashF ino i)))).map (fun i => i.name.length + 1)).sum =
            (m.name.length + 1) +
            (((l.filter (fun i => decide (keyLe (xkey ino ch ci 0)
              (instKey hashF ino i)))).erase m).map
                (fun i => i.name.length + 1)).sum := by
          rw [(hpermS.map (fun i => i.name.length + 1)).sum_eq]
          simp
        obtain ⟨l2, hl2perm, hl2run⟩ := ih (hashF m.name) (m.id + 1) fuel
          (total + m.name.length + 1) (buf ++ m.name ++ [0])
          (by rw [hfe]; exact hlenS) (by omega)
          (by rw [hfe]; omega)
        refine ⟨m :: l2, ?_, ?_⟩
        · exact List.Perm.trans (List.Perm.cons m (hl2perm.trans (by rw [hfe])))
            hpermS.symm
        · rw [hl2run, hfe]
          refine congrArg Except.ok ?_
          rw [Prod.mk.injEq]
          constructor
          · omega
          · simp only [List.map_cons, List.flatten_cons]
            simp [List.append_assoc]

theorem instStore_length_ge (hashF : List Nat → Nat) (ino : Nat)
    (l : List Inst) : l.length ≤ (instStore hashF ino l).length := by
  induction l with
  | nil => simp [instStore]
  | cons i t ih =>
    rw [instStore, List.map_cons, List.flatten_cons]
    rw [List.length_append, List.length_cons]
    have h1 : 1 ≤ (xattrItems ino (hashF i.name) i.id (instEnc i)).length := by
      rw [xattrItems, partsFrom_length, chunksOf_length]
      have h3 : (instEnc i).length = 3 + i.name.length + i.val.length := by
        rw [instEnc, xattrEncode_length]
      simp only [PARTSZ]
      omega
    have h2 := ih
    rw [instStore] at h2
    omega

theorem countP_name_eq_one {l : List Inst}
    (hnames : (l.map Inst.name).Nodup) {i : Inst} (hi : i ∈ l) :
    l.countP (fun j => decide (j.name = i.name)) = 1 := by
  induction l with
  | nil => cases hi
  | cons a t ih =>
    rw [List.map_cons, List.nodup_cons] at hnames
    rcases List.mem_cons.mp hi with heq | hmem
    · subst heq
      rw [List.countP_cons_of_pos _ _ (by simp)]
      have h0 : t.countP (fun j => decide (j.name = i.name)) = 0 := by
        apply List.countP_eq_zero.mpr
        intro j hj
        simp only [decide_eq_true_eq]
        intro hjn
        exact hnames.1 (by rw [← hjn]; exact List.mem_map.mpr ⟨j, hj, rfl⟩)
      omega
    · rw [List.countP_cons_of_neg _ _ ?_]
      · exact ih hnames.2 hmem
      · simp only [decide_eq_true_eq]
        intro han
        exact hnames.1 (by rw [han]; exact List.mem_map.mpr ⟨i, hmem, rfl⟩)

/-- C6: over any set of stored xattrs of a file — order of creation
arbitrary, name hashes possibly colliding — `scoutfs_listxattr` returns
the NUL-terminated names of all of them, each exactly once, and the count
of all the name bytes. -/
theorem claim_C6_list (hashF : List Nat → Nat) (ino : Nat) (l : List Inst)
    (size : Nat)
    (W1 : wfInsts l) (W2 : ∀ s2, hashF s2 < 2 ^ 32)
    (W3 : l.Pairwise (fun i j => (hashF i.name, i.id) ≠ (hashF j.name, j.id)))
    (hnames : (l.map Inst.name).Nodup)
    (hsz : size ≠ 0)
    (hroom : (l.map (fun i => i.name.length + 1)).sum ≤ size) :
    ∃ l2, List.Perm l2 l ∧
      scoutfs_listxattr hashF (instStore hashF ino l) ino size =
        .ok ((l.map (fun i => i.name.length + 1)).sum,
          (l2.map (fun i => i.name ++ [0])).flatten) ∧
      ∀ i ∈ l, l2.countP (fun j => decide (j.name = i.name)) = 1 := by
  have hfilter : l.filter (fun i => decide (keyLe (xkey ino 0 0 0)
      (instKey hashF ino i))) = l := by
    apply List.filter_eq_self.mpr
    intro i hi
    apply decide_eq_true
    simp only [instKey]
    rw [keyLe_iff_not_lt, keyLt_xkey_iff]
    omega
  have hlenstore : l.length ≤ (instStore hashF ino l).length :=
    instStore_length_ge hashF ino l
  obtain ⟨l2, hperm, hrun⟩ := listLoop_spec hashF ino l size W1 W2 W3 hsz
    l.length 0 0 ((instStore hashF ino l).length + 1) 0 []
    (by rw [hfilter]) (by omega) (by rw [hfilter]; omega)
  rw [hfilter] at hperm hrun
  refine ⟨l2, hperm, ?_, ?_⟩
  · rw [scoutfs_listxattr, hrun]
    simp
  · intro i hi
    rw [List.Perm.countP_eq _ hperm]
    exact countP_name_eq_one hnames hi

theorem claim_C6_list_witness :
    ∃ l2, List.Perm l2 ([⟨0, nmUserA, [1]⟩, ⟨1, nmUserB, [2, 2]⟩] : List Inst) ∧
      scoutfs_listxattr (fun _ => 0)
          (instStore (fun _ => 0) 7 [⟨0, nmUserA, [1]⟩, ⟨1, nmUserB, [2, 2]⟩])
          7 100 =
        .ok ((([⟨0, nmUserA, [1]⟩, ⟨1, nmUserB, [2, 2]⟩] : List Inst).map
            (fun i => i.name.length + 1)).sum,
          (l2.map (fun i => i.name ++ [0])).flatten) ∧
      ∀ i ∈ ([⟨0, nmUserA, [1]⟩, ⟨1, nmUserB, [2, 2]⟩] : List Inst),
        l2.countP (fun j => decide (j.name = i.name)) = 1 :=
  claim_C6_list (fun _ => 0) 7 [⟨0, nmUserA, [1]⟩, ⟨1, nmUserB, [2, 2]⟩] 100
    (by decide) (fun _ => show (0 : Nat) < 2 ^ 32 by decide) (by decide)
    (by decide) (by decide) (by decide)
